import Mathlib

/-!
Verification of the playbook curation engine of `src/hooks/common.py`:
the section registry, the ID generator, the playbook store (load / save /
legacy migration), the curator operations engine, the pruning rule,
the extraction-result dispatch, and the embedding-based deduplication pass.

Modelling conventions.
* A Python dict entry `{"name": ..., "text": ..., "helpful": ..., "harmful": ...,
  "score": ...}` is the structure `Entry` below; a field is `none` when the
  corresponding key is absent from the dict.  A read `kp["k"]` that can raise
  `KeyError` is modelled in the `Except PyErr` monad; a read `kp.get("k", d)`
  is modelled with `Option.getD`.
* A Python dict used as an insertion-ordered string-keyed map (the `sections`
  map, parsed JSON records) is modelled as an ordered association list.
  Parsed JSON objects never carry duplicate keys, so association lists built
  by the model keep the dict semantics.
* Counters are `Int` (Python integers from parsed JSON; the code never
  guards their sign on input).
* Diagnostic artifacts (stderr prints, `save_diagnostic` files) do not change
  the record and are not modelled, except where a diagnostic line performs a
  raising dict access unconditionally (the `prune_harmful` stderr loop).
* External collaborators (the sentence-transformers embedding model, the
  environment) enter as explicit parameters.
-/

set_option maxRecDepth 4000

namespace ACE

/-- Python exception kinds that the modelled code can raise. -/
inductive PyErr where
  | keyError
  | attributeError
deriving Repr, DecidableEq

/-- A playbook entry: a Python dict with the keys the engine ever touches.
A field is `none` when the key is absent from the dict. -/
structure Entry where
  name : Option String
  text : Option String
  helpful : Option Int
  harmful : Option Int
  score : Option Int
deriving Repr, DecidableEq, Inhabited

/-- The `sections` map: an insertion-ordered dict from section name to entry list. -/
abbrev Sections := List (String × List Entry)

/-- `SECTION_SLUGS`: the canonical section table, in canonical iteration order. -/
def SECTION_SLUGS : List (String × String) :=
  [("PATTERNS & APPROACHES", "pat"),
   ("MISTAKES TO AVOID", "mis"),
   ("USER PREFERENCES", "pref"),
   ("PROJECT CONTEXT", "ctx"),
   ("OTHERS", "oth")]

/-- The five canonical section names, in canonical order. -/
def sectionNames : List String := SECTION_SLUGS.map (·.1)

/-- `SECTION_SLUGS[section_name]`: raises `KeyError` on a non-canonical name. -/
def slugOfE (n : String) : Except PyErr String :=
  match SECTION_SLUGS.find? (·.1 = n) with
  | some p => .ok p.2
  | none => .error .keyError

/-- Python `str` whitespace, for `.strip()` (restricted to the whitespace
characters that occur in this engine's data). -/
def isSpaceChar (c : Char) : Bool := c = ' ' || c = '\t' || c = '\n' || c = '\r'

/-- Python `s.strip()`. -/
def pyStrip (s : String) : String :=
  ⟨((s.data.dropWhile isSpaceChar).reverse.dropWhile isSpaceChar).reverse⟩

/-- The validation test `not s or not s.strip()`: `s` is empty or all
whitespace. -/
def isBlank (s : String) : Bool := s.data.all isSpaceChar

/-- Python `s.upper()` (ASCII case mapping; all canonical names are ASCII). -/
def pyUpper (s : String) : String := ⟨s.data.map Char.toUpper⟩

/-- `_resolve_section`: trim, case-insensitive exact match, fallback `OTHERS`. -/
def _resolve_section (sectionName : String) : String :=
  if isBlank sectionName then "OTHERS"
  else
    let stripped := pyStrip sectionName
    match SECTION_SLUGS.find? (fun c => pyUpper c.1 = pyUpper stripped) with
    | some c => c.1
    | none => "OTHERS"

/-- `int(ds)` for a nonempty all-digit string (the only shape a `(\d+)` match
group can take). -/
def digitsToNat (cs : List Char) : Nat := cs.foldl (fun a c => a * 10 + (c.toNat - 48)) 0

/-- A `(\d+)` match anchored to the end of the string: nonempty, all digits.
(Python `\d` also matches non-ASCII decimal digits; entry names never carry
those.) -/
def parseDigits (cs : List Char) : Option Nat :=
  if cs ≠ [] ∧ cs.all Char.isDigit then some (digitsToNat cs) else none

/-- Models `re.match(rf"^{slug}-(\d+)$", name)` followed by `int(group(1))`:
`some k` when `name` is `slug ++ "-"` followed by a nonempty run of digits
(of any length) and nothing else. -/
def parseSlugNum (slug name : String) : Option Nat :=
  let pre := slug.data ++ ['-']
  if pre.isPrefixOf name.data then parseDigits (name.data.drop pre.length) else none

/-- Models the f-string padding `f"{n:03d}"`: decimal digits, left-padded
with zeros to at least width 3. -/
def pad3 (n : Nat) : String :=
  let ds := Nat.toDigits 10 n
  ⟨List.replicate (3 - ds.length) '0' ++ ds⟩

/-- `generate_keypoint_name(section_entries, slug)`: scan `entry.get("name", "")`
of each entry for the `{slug}-digits` pattern, take the running maximum of the
numeric suffixes (starting at 0), return `slug-{max+1:03d}`. -/
def generate_keypoint_name (sectionEntries : List Entry) (slug : String) : String :=
  let maxNum := sectionEntries.foldl
    (fun m e =>
      match parseSlugNum slug (e.name.getD "") with
      | some k => max m k
      | none => m) 0
  slug ++ "-" ++ pad3 (maxNum + 1)

/-- Python `s.split("_")`. -/
def splitOnUnderscore : List Char → List (List Char)
  | [] => [[]]
  | c :: rest =>
    let r := splitOnUnderscore rest
    if c = '_' then [] :: r
    else
      match r with
      | [] => [[c]]
      | g :: gs => (c :: g) :: gs

/-- Models `name.startswith("kpt_")` followed by `int(name.split("_")[1])`
(the `ValueError` branch yielding `none`; `parseDigits` is slightly stricter
than Python `int`, which also accepts signs and surrounding whitespace — no
entry name exercised by the claims takes those shapes). -/
def parseLegacyNum (name : String) : Option Nat :=
  if "kpt_".data.isPrefixOf name.data then
    match (splitOnUnderscore name.data).get? 1 with
    | some ds => parseDigits ds
    | none => none
  else none

/-- `_generate_legacy_keypoint_name(existing_names)`.  The Python argument is a
set; only the maximum of the parsed suffixes matters, so a list argument is
equivalent. -/
def _generate_legacy_keypoint_name (existingNames : List String) : String :=
  let maxNum := existingNames.foldl
    (fun m nm =>
      match parseLegacyNum nm with
      | some k => max m k
      | none => m) 0
  "kpt_" ++ pad3 (maxNum + 1)

/-- The loaded playbook record.  Every branch of `load_playbook` yields a dict
with a `sections` key, so `sections` is a plain field here; `version` and
`last_updated` keys may be absent (`none`).  (The distinction between an
absent `last_updated` key and one bound to JSON `null` plays no role in any
claim and is conflated.) -/
structure Playbook where
  version : Option String
  lastUpdated : Option String
  sections : Sections
deriving Repr, DecidableEq

/-- One element of a legacy flat `key_points` array: a bare string, a dict
(same key set as `Entry`), or a value of any other type (silently dropped by
the migration loop, which only handles `str` and `dict`). -/
inductive KPItem where
  | str (s : String)
  | obj (e : Entry)
  | other
deriving Repr, DecidableEq

/-- A parsed persisted record (a JSON object).  `sections`/`key_points` are
`none` when the key is absent.  A `sections` value that is not a dict (or a
`key_points` value that is not iterable) makes `load_playbook` raise inside
its `try` and fall back to the default playbook, which is the same output as
for the `.unparseable` input below, so such shapes need no extra constructor. -/
structure RawRecord where
  version : Option String
  lastUpdated : Option String
  sections : Option Sections
  keyPoints : Option (List KPItem)
deriving Repr, DecidableEq

/-- What `load_playbook` finds on disk. -/
inductive LoadInput where
  | noFile
  | unparseable
  | record (r : RawRecord)
deriving Repr, DecidableEq

/-- `_default_playbook()`. -/
def _default_playbook : Playbook :=
  { version := some "1.0",
    lastUpdated := none,
    sections := sectionNames.map (fun n => (n, [])) }

/-- The loop `for section_name in SECTION_SLUGS: if section_name not in
data["sections"]: data["sections"][section_name] = []` — missing canonical
sections are appended at the end of the dict, in canonical order. -/
def completeSections (secs : Sections) : Sections :=
  secs ++ (sectionNames.filter (fun n => ¬ secs.any (·.1 = n))).map (fun n => (n, []))

/-- One step of the flat-format migration loop: state is the accumulated
`keypoints` list and the `existing_names` set. -/
def migrateItem (st : List Entry × List String) (item : KPItem) : List Entry × List String :=
  let (kps, names) := st
  match item with
  | .str s =>
      -- Branch 1: bare string
      let nm := _generate_legacy_keypoint_name names
      (kps ++ [⟨some nm, some s, some 0, some 0, none⟩], names ++ [nm])
  | .obj e =>
      if e.helpful.isSome ∧ e.harmful.isSome then
        -- Branch 0: already migrated; ensure a name, pop any stray score
        let e1 := if e.name.isSome then e
                  else { e with name := some (_generate_legacy_keypoint_name names) }
        let e2 := { e1 with score := none }
        (kps ++ [e2], names ++ [e2.name.getD ""])
      else
        match e.score with
        | some sc =>
          -- Branch 3: dict with score → helpful = max(score,0), harmful = max(-score,0)
          let e1 := if e.name.isSome then e
                    else { e with name := some (_generate_legacy_keypoint_name names) }
          let e2 := { e1 with score := none,
                              helpful := some (max sc 0), harmful := some (max (-sc) 0) }
          (kps ++ [e2], names ++ [e2.name.getD ""])
        | none =>
          -- Branch 2: dict with neither counters nor score
          let e1 := if e.name.isSome then e
                    else { e with name := some (_generate_legacy_keypoint_name names) }
          let e2 := { e1 with helpful := some 0, harmful := some 0 }
          (kps ++ [e2], names ++ [e2.name.getD ""])
  | .other => (kps, names)

/-- `load_playbook()`, as a function of what is on disk. -/
def load_playbook (input : LoadInput) : Playbook :=
  match input with
  | .noFile => _default_playbook
  | .unparseable => _default_playbook
  | .record r =>
    match r.sections with
    | some secs =>
        -- current format: add missing canonical sections, drop key_points
        { version := r.version, lastUpdated := r.lastUpdated,
          sections := completeSections secs }
    | none =>
      match r.keyPoints with
      | none => _default_playbook
      | some items =>
        -- flat-format migration: all migrated entries land in OTHERS
        let kps := (items.foldl migrateItem ([], [])).1
        { version := r.version, lastUpdated := r.lastUpdated,
          sections := sectionNames.map (fun n => (n, if n = "OTHERS" then kps else [])) }

/-- `save_playbook(playbook)`: the JSON object written to disk.  The
`assert "sections" in playbook` precondition is enforced by the `Playbook`
type (every loaded playbook has the field); the legacy `key_points` key is
stripped; `last_updated` is stamped with the current time (`now`). -/
def save_playbook (p : Playbook) (now : String) : RawRecord :=
  { version := p.version, lastUpdated := some now,
    sections := some p.sections, keyPoints := none }

/-! ## Curator operations engine (`_apply_curator_operations` and wrappers) -/

/-- The fields a curator operation dict may carry.  `op.get(k, default)` reads
are modelled with `Option.getD`.  A field bound to a value of the wrong type
(checked in the code with `isinstance`) produces the same skip as a blank or
absent field, so those shapes are conflated with `none`. -/
structure OpFields where
  type : String
  text : Option String
  sectionField : Option String
  source_ids : Option (List String)
  merged_text : Option String
  target_id : Option String
  reason : Option String
deriving Repr, DecidableEq

/-- One element of the `operations` list.  An element that is not a dict makes
`op.get("type", "")` raise `AttributeError`. -/
inductive OpItem where
  | dict (o : OpFields)
  | nonDict
deriving Repr, DecidableEq

/-- `kp["text"]` for every entry of every section (the ADD duplicate check and
the legacy-path `existing_texts` set): raises `KeyError` on an entry with no
`text` key. -/
def allTextsE (secs : Sections) : Except PyErr (List String) :=
  (secs.mapM (fun (p : String × List Entry) => p.2.mapM (fun (e : Entry) =>
      match e.text with
      | none => Except.error PyErr.keyError
      | some t => Except.ok t))).map List.flatten

/-- `playbook["sections"][n]`: raises `KeyError` when the key is absent. -/
def getSectionE (secs : Sections) (n : String) : Except PyErr (List Entry) :=
  match secs.find? (·.1 = n) with
  | some p => .ok p.2
  | none => .error .keyError

/-- Assignment `playbook["sections"][n] = es` on an existing key. -/
def setSection (secs : Sections) (n : String) (es : List Entry) : Sections :=
  secs.map (fun p => if p.1 = n then (p.1, es) else p)

/-- Replace the element at index `i` (used for in-place entry mutation). -/
def modifyIdx {α : Type} : List α → Nat → (α → α) → List α
  | [], _, _ => []
  | a :: rest, 0, f => f a :: rest
  | a :: rest, n + 1, f => a :: modifyIdx rest n f

/-- The scan `for kp in entries: if kp["name"] == tid: ... break`: index of the
first matching entry; raises `KeyError` at the first nameless entry reached
before a match. -/
def findInEntries : List Entry → String → Except PyErr (Option Nat)
  | [], _ => .ok none
  | e :: rest, tid =>
    match e.name with
    | none => .error .keyError
    | some nm =>
      if nm = tid then .ok (some 0)
      else (findInEntries rest tid).map (fun o => o.map (· + 1))

/-- The UPDATE/DELETE lookup across all sections, stopping at the first section
that contains the target. -/
def findLoc : Sections → String → Except PyErr (Option (Nat × Nat))
  | [], _ => .ok none
  | (_, es) :: rest, tid => do
    match ← findInEntries es tid with
    | some j => pure (some (0, j))
    | none =>
      match ← findLoc rest tid with
      | some (i, j) => pure (some (i + 1, j))
      | none => pure none

/-- The removal comprehension `[kp for kp in es if kp["name"] != tid]`: raises
`KeyError` if any entry of the list is nameless. -/
def removeByNameE (es : List Entry) (tid : String) : Except PyErr (List Entry) := do
  let ps : List (String × Entry) ← es.mapM (fun (e : Entry) =>
      match e.name with
      | none => Except.error PyErr.keyError
      | some nm => Except.ok (nm, e))
  pure ((ps.filter (fun q => q.1 ≠ tid)).map (·.2))

/-- The `id_to_entry` / `id_to_section` construction: `(name, section, entry)`
triples in dict iteration order; raises on a nameless entry. -/
def namedEntriesE (secs : Sections) : Except PyErr (List (String × String × Entry)) :=
  (secs.mapM (fun (p : String × List Entry) => p.2.mapM (fun (e : Entry) =>
      match e.name with
      | none => Except.error PyErr.keyError
      | some nm => Except.ok (nm, p.1, e)))).map List.flatten

/-- Lookup in a dict built by repeated assignment: the last binding wins. -/
def lookupLast (ps : List (String × String × Entry)) (k : String) : Option (String × Entry) :=
  (ps.reverse.find? (·.1 = k)).map (·.2)

/-- `kp["helpful"]` / `kp["harmful"]`: raises `KeyError` when absent. -/
def entryCounterE (x : Option Int) : Except PyErr Int :=
  match x with
  | some v => .ok v
  | none => .error .keyError

/-- The ADD branch of `_apply_curator_operations`. -/
def applyADD (secs : Sections) (o : OpFields) : Except PyErr Sections :=
  let t := o.text.getD ""
  if isBlank t then .ok secs
  else do
    let sectionName := _resolve_section (o.sectionField.getD "")
    let texts ← allTextsE secs
    if t ∈ texts then pure secs
    else do
      let slug ← slugOfE sectionName
      let target ← getSectionE secs sectionName
      let nm := generate_keypoint_name target slug
      pure (setSection secs sectionName
        (target ++ [⟨some nm, some t, some 0, some 0, none⟩]))

/-- The removal loop at the end of MERGE: for each valid source id, rebuild its
(pre-merge) section without it. -/
def removeValidIds : Sections → List (String × String × Entry) → List String →
    Except PyErr Sections
  | secs, _, [] => .ok secs
  | secs, pairs, sid :: rest => do
    let sec := ((lookupLast pairs sid).map (·.1)).getD ""
    let es ← getSectionE secs sec
    let es' ← removeByNameE es sid
    removeValidIds (setSection secs sec es') pairs rest

/-- The MERGE branch of `_apply_curator_operations`. -/
def applyMERGE (secs : Sections) (o : OpFields) : Except PyErr Sections :=
  let sourceIds := o.source_ids.getD []
  let mt := o.merged_text.getD ""
  if sourceIds.length < 2 then .ok secs
  else if isBlank mt then .ok secs
  else do
    let pairs ← namedEntriesE secs
    let validIds := sourceIds.filter (fun sid => (lookupLast pairs sid).isSome)
    if validIds.length < 2 then pure secs
    else do
      let raw := o.sectionField.getD ""
      let targetSection :=
        if ¬ isBlank raw then _resolve_section raw
        else ((lookupLast pairs (validIds.headD "")).map (·.1)).getD ""
      let totalHelpful ← (validIds.mapM (fun sid =>
          entryCounterE (((lookupLast pairs sid).map (·.2.helpful)).getD none))).map List.sum
      let totalHarmful ← (validIds.mapM (fun sid =>
          entryCounterE (((lookupLast pairs sid).map (·.2.harmful)).getD none))).map List.sum
      let slug ← slugOfE targetSection
      let target ← getSectionE secs targetSection
      let nm := generate_keypoint_name target slug
      let secs1 := setSection secs targetSection
        (target ++ [⟨some nm, some mt, some totalHelpful, some totalHarmful, none⟩])
      removeValidIds secs1 pairs validIds

/-- The UPDATE branch of `_apply_curator_operations`.  On success only the
`text` key of the first matching entry is reassigned (the read of
`found_entry["text"]` for the audit line raises when the key is absent). -/
def applyUPDATE (secs : Sections) (o : OpFields) : Except PyErr Sections :=
  let tid := o.target_id.getD ""
  let t := o.text.getD ""
  if isBlank tid then .ok secs
  else if isBlank t then .ok secs
  else do
    match ← findLoc secs tid with
    | none => pure secs
    | some (i, j) =>
      let e := ((secs.getD i ("", [])).2.getD j default)
      match e.text with
      | none => Except.error PyErr.keyError
      | some _ =>
        pure (modifyIdx secs i (fun sp => (sp.1, modifyIdx sp.2 j (fun e0 => { e0 with text := some t }))))

/-- The DELETE branch of `_apply_curator_operations`. -/
def applyDELETE (secs : Sections) (o : OpFields) : Except PyErr Sections :=
  let tid := o.target_id.getD ""
  if isBlank tid then .ok secs
  else do
    match ← findLoc secs tid with
    | none => pure secs
    | some (i, _j) => do
      let es' ← removeByNameE (secs.getD i ("", [])).2 tid
      pure (modifyIdx secs i (fun sp => (sp.1, es')))

/-- Dispatch on `op.get("type", "")`; an unrecognized type is a skip, a
non-dict list element raises `AttributeError`. -/
def applyOneOp (secs : Sections) (op : OpItem) : Except PyErr Sections :=
  match op with
  | .nonDict => .error .attributeError
  | .dict o =>
    if o.type = "ADD" then applyADD secs o
    else if o.type = "MERGE" then applyMERGE secs o
    else if o.type = "UPDATE" then applyUPDATE secs o
    else if o.type = "DELETE" then applyDELETE secs o
    else .ok secs

/-- The sequential operation loop (after truncation). -/
def applyOpsLoop : Sections → List OpItem → Except PyErr Sections
  | secs, [] => .ok secs
  | secs, op :: rest => do
    let secs' ← applyOneOp secs op
    applyOpsLoop secs' rest

/-- `_apply_curator_operations`: truncate to the first 10 operations, then run
the loop.  The argument is already a private copy in every caller. -/
def _apply_curator_operations (p : Playbook) (ops : List OpItem) : Except PyErr Playbook :=
  (applyOpsLoop p.sections (ops.take 10)).map (fun s => { p with sections := s })

/-- `apply_structured_operations`: empty batch returns the playbook as is;
otherwise the operations run against a deep copy (immutability makes the copy
implicit here) and any escaping exception discards the copy and returns the
original. -/
def apply_structured_operations (p : Playbook) (ops : List OpItem) : Playbook :=
  if ops.isEmpty then p
  else
    match _apply_curator_operations p ops with
    | .ok p' => p'
    | .error _ => p

/-! ## Pruning -/

/-- The pruning condition `harmful >= 3 and harmful > helpful`, with the
`kp.get(..., 0)` defaulting used by both pruning sites. -/
def prunePred (e : Entry) : Bool :=
  decide (3 ≤ e.harmful.getD 0 ∧ e.helpful.getD 0 < e.harmful.getD 0)

/-- Filter every section by the pruning condition. -/
def pruneSections (secs : Sections) : Sections :=
  secs.map (fun p => (p.1, p.2.filter (fun e => !prunePred e)))

/-- The `pruned_entries` list collected by `prune_harmful`. -/
def prunedOf (secs : Sections) : List Entry :=
  (secs.map (fun p => p.2.filter prunePred)).flatten

/-- `prune_harmful(playbook)`.  After the sections are rewritten, an
unconditional stderr report reads `kp["name"]`, `kp["text"]`, `kp["helpful"]`
and `kp["harmful"]` of every pruned entry, raising `KeyError` when one of the
first three keys is absent (`harmful` is present in every pruned entry, since
the predicate needs `harmful >= 3`). -/
def prune_harmful (p : Playbook) : Except PyErr Playbook :=
  if (prunedOf p.sections).any
      (fun e => e.name.isNone || e.text.isNone || e.helpful.isNone)
  then .error .keyError
  else .ok { p with sections := pruneSections p.sections }

/-! ## `update_playbook_data` -/

/-- One evaluation record `{name, rating}`.  A non-dict element of the
`evaluations` list would raise; the claims only concern dict-shaped
evaluations, whose `name`/`rating` are read with `.get(k, "")`. -/
structure EvalItem where
  name : String
  rating : String
deriving Repr, DecidableEq

/-- The value found under the `operations` key: a list, or anything else
(skipped by the `isinstance(operations, list)` guard). -/
inductive OpsVal where
  | list (l : List OpItem)
  | nonList
deriving Repr, DecidableEq

/-- One element of a legacy `new_key_points` list: a bare string, a dict with
optional `text` / `section` keys, or anything else (skipped). -/
inductive NKPItem where
  | str (s : String)
  | obj (text : Option String) (sectionField : Option String)
  | other
deriving Repr, DecidableEq

/-- An extraction result dict: each field is `none` when the key is absent. -/
structure ExtractionResult where
  operations : Option OpsVal
  new_key_points : Option (List NKPItem)
  evaluations : Option (List EvalItem)
deriving Repr, DecidableEq

/-- The text/section computed for one legacy `new_key_points` element
(`none` for a skipped non-str non-dict element). -/
def legacyItemData : NKPItem → Option (String × String)
  | .str s => some (s, "OTHERS")
  | .obj t sec => some (t.getD "", _resolve_section (sec.getD ""))
  | .other => none

/-- The legacy insertion loop, carrying the `existing_texts` set. -/
def legacyLoop : Sections → List String → List NKPItem → Except PyErr Sections
  | secs, _, [] => .ok secs
  | secs, existing, item :: rest =>
    match legacyItemData item with
    | none => legacyLoop secs existing rest
    | some (text, sectionName) =>
      if text = "" ∨ text ∈ existing then legacyLoop secs existing rest
      else do
        let slug ← slugOfE sectionName
        let target ← getSectionE secs sectionName
        let nm := generate_keypoint_name target slug
        legacyLoop
          (setSection secs sectionName (target ++ [⟨some nm, some text, some 0, some 0, none⟩]))
          (existing ++ [text]) rest

/-- The legacy `new_key_points` path of `update_playbook_data`. -/
def legacyPath (p : Playbook) (items : List NKPItem) : Except PyErr Playbook := do
  let texts ← allTextsE p.sections
  let secs ← legacyLoop p.sections texts items
  pure { p with sections := secs }

/-- `kp["name"]` of every entry (the `name_to_kp` construction): raises on a
nameless entry. -/
def allNamesE (secs : Sections) : Except PyErr (List String) :=
  (secs.mapM (fun (p : String × List Entry) => p.2.mapM (fun (e : Entry) =>
      match e.name with
      | none => Except.error PyErr.keyError
      | some nm => Except.ok nm))).map List.flatten

/-- `kp["helpful"] += 1`: raises when the key is absent. -/
def bumpHelpful (e : Entry) : Except PyErr Entry :=
  match e.helpful with
  | none => .error .keyError
  | some h => .ok { e with helpful := some (h + 1) }

/-- `kp["harmful"] += 1`: raises when the key is absent. -/
def bumpHarmful (e : Entry) : Except PyErr Entry :=
  match e.harmful with
  | none => .error .keyError
  | some h => .ok { e with harmful := some (h + 1) }

/-- Apply `f` to the last entry with name `nm` in a list, if any
(`name_to_kp[nm]` is the last binding written while iterating). -/
def bumpLastEntry : List Entry → String → (Entry → Except PyErr Entry) →
    Option (Except PyErr (List Entry))
  | [], _, _ => none
  | e :: rest, nm, f =>
    match bumpLastEntry rest nm f with
    | some r => some (r.map (e :: ·))
    | none => if e.name = some nm then some ((f e).map (· :: rest)) else none

/-- Apply `f` to the last entry with name `nm` across all sections, if any. -/
def bumpLastSections : Sections → String → (Entry → Except PyErr Entry) →
    Option (Except PyErr Sections)
  | [], _, _ => none
  | (n, es) :: rest, nm, f =>
    match bumpLastSections rest nm f with
    | some r => some (r.map ((n, es) :: ·))
    | none =>
      match bumpLastEntry es nm f with
      | some r => some (r.map (fun es' => (n, es') :: rest))
      | none => none

/-- One iteration of the evaluations loop. -/
def evalStepE (secs : Sections) (ev : EvalItem) : Except PyErr Sections :=
  if ev.rating = "helpful" then
    match bumpLastSections secs ev.name bumpHelpful with
    | some r => r
    | none => .ok secs
  else if ev.rating = "harmful" then
    match bumpLastSections secs ev.name bumpHarmful with
    | some r => r
    | none => .ok secs
  else .ok secs

/-- The evaluations phase: `name_to_kp` is built up front (raising on a
nameless entry), then each evaluation is applied in order. -/
def evalPhaseE (secs : Sections) (evals : List EvalItem) : Except PyErr Sections := do
  let _ ← allNamesE secs
  evals.foldlM evalStepE secs

/-- `update_playbook_data(playbook, extraction_result)`: precedence on the
presence of the `operations` key (the ops path catches exceptions from the
operation batch and rolls back to the original playbook), then evaluations,
then inline pruning. -/
def update_playbook_data (p : Playbook) (er : ExtractionResult) : Except PyErr Playbook := do
  let p1 ←
    match er.operations with
    | some v =>
      match v with
      | .list ops =>
        if ops.isEmpty then pure p
        else
          match _apply_curator_operations p ops with
          | .ok p2 => pure p2
          | .error _ => pure p
      | .nonList => pure p
    | none => legacyPath p (er.new_key_points.getD [])
  let secs2 ← evalPhaseE p1.sections (er.evaluations.getD [])
  pure { p1 with sections := pruneSections secs2 }

/-! ## Deduplication engine (`run_deduplication`) -/

/-- The outcome of `SentenceTransformer(...).encode(texts, ...)`: the external
embedding provider's vectors (one per text, in order), or a raised exception. -/
inductive EncodeResult where
  | vecs (v : List (List Rat))
  | failure
deriving Repr, DecidableEq

/-- The environment `run_deduplication` runs in: whether the optional
dependencies import, what the provider returns, and the
`AGENTIC_CONTEXT_DEDUP_THRESHOLD` variable (`none` = unset, `some none` =
set but not a parseable float, `some (some t)` = parsed value). -/
structure DedupEnv where
  available : Bool
  encode : EncodeResult
  envThreshold : Option (Option Rat)
deriving Repr, DecidableEq

/-- Threshold resolution: explicit argument, else environment override, else
0.85; always clamped to `[0, 1]`. -/
def resolveThreshold (explicit : Option Rat) (env : Option (Option Rat)) : Rat :=
  let t :=
    match explicit with
    | some t0 => t0
    | none =>
      match env with
      | none => (0.85 : Rat)
      | some none => (0.85 : Rat)
      | some (some t0) => t0
  max 0 (min 1 t)

/-- Dot product (the embeddings are already normalized by the provider, so
`embeddings @ embeddings.T` entries are plain dot products). -/
def dot (u v : List Rat) : Rat := (List.zipWith (· * ·) u v).sum

/-- `sim_matrix[i][j]`. -/
def simOf (vecs : List (List Rat)) (i j : Nat) : Rat := dot (vecs.getD i []) (vecs.getD j [])

/-- The `flat_entries` list: `(section_name, entry)` in canonical section
order, insertion order within a section. -/
def flattenPlaybook (secs : Sections) : List (String × Entry) :=
  (sectionNames.map (fun n =>
    (match secs.find? (fun (q : String × List Entry) => q.1 = n) with
     | some p => p.2
     | none => ([] : List Entry)).map (fun e => (n, e)))).flatten

/-- `find(x)` with path halving (`parent[x] = parent[parent[x]]; x = parent[x]`),
fuelled; call sites pass the array length, which bounds the loop under the
union-find forest invariant. -/
def ufFind : List Nat → Nat → Nat → Nat × List Nat
  | parent, x, 0 => (x, parent)
  | parent, x, fuel + 1 =>
    let px := parent.getD x x
    if px = x then (x, parent)
    else ufFind (parent.set x (parent.getD px px)) (parent.getD px px) fuel

/-- `union(a, b)`: `parent[find(a)] = find(b)` when the roots differ. -/
def ufUnion (parent : List Nat) (a b : Nat) : List Nat :=
  let fa := ufFind parent a parent.length
  let fb := ufFind fa.2 b fa.2.length
  if fa.1 = fb.1 then fb.2 else fb.2.set fa.1 fb.1

/-- The pair loop order: `for i in range(n): for j in range(i+1, n)`. -/
def pairsLex (n : Nat) : List (Nat × Nat) :=
  ((List.range n).map (fun i =>
    ((List.range n).filter (fun j => i < j)).map (fun j => (i, j)))).flatten

/-- The union loop: `if sim_matrix[i][j] >= threshold: union(i, j)` starting
from `parent = list(range(n))`. -/
def buildParent (n : Nat) (sim : Nat → Nat → Rat) (θ : Rat) : List Nat :=
  (pairsLex n).foldl
    (fun parent ij => if sim ij.1 ij.2 ≥ θ then ufUnion parent ij.1 ij.2 else parent)
    (List.range n)

/-- One step of the grouping loop: `components.setdefault(find(i), []).append(i)`
with the threaded, path-compressed parent array. -/
def compStep (st : List (Nat × List Nat) × List Nat) (i : Nat) :
    List (Nat × List Nat) × List Nat :=
  let r := ufFind st.2 i st.2.length
  let comps :=
    if st.1.any (·.1 = r.1) then
      st.1.map (fun c => if c.1 = r.1 then (c.1, c.2 ++ [i]) else c)
    else st.1 ++ [(r.1, [i])]
  (comps, r.2)

/-- The grouping loop: a dict from root to member list, keys in order of first
occurrence, members in index order (so the code's `members.sort()` is the
identity). `find` keeps compressing the threaded parent array. -/
def componentsOf (parent0 : List Nat) (n : Nat) : List (Nat × List Nat) :=
  ((List.range n).foldl compStep ([], parent0)).1

/-- `flat_entries[i]`. -/
def flatGet (flat : List (String × Entry)) (i : Nat) : String × Entry :=
  flat.getD i ("", default)

/-- `sum(flat_entries[m][1]["helpful"] for m in members)` (or `"harmful"`):
raises `KeyError` at the first member missing the key. -/
def sumCounterE (flat : List (String × Entry)) (ms : List Nat) (f : Entry → Option Int) :
    Except PyErr Int :=
  (ms.mapM (fun m =>
      match f (flatGet flat m).2 with
      | some v => Except.ok v
      | none => Except.error PyErr.keyError)).map List.sum

/-- The per-component merge loop.  Each multi-member component sums both
counters (raising on an absent key *before* writing anything for that
component) and then assigns them onto the survivor — the member with the
smallest flattened index, i.e. the head of the sorted member list — and marks
the tail for removal.  The error payload is the flat entry list at the moment
a `KeyError` is raised: components already processed have been merged in
place, which is exactly what the surrounding `except` hands back. -/
def mergeComponents :
    List (String × Entry) → List (Nat × List Nat) → List Nat →
    Except (List (String × Entry)) (List (String × Entry) × List Nat)
  | flat, [], acc => .ok (flat, acc)
  | flat, c :: rest, acc =>
    if c.2.length ≤ 1 then mergeComponents flat rest acc
    else
      match sumCounterE flat c.2 (·.helpful) with
      | .error _ => .error flat
      | .ok th =>
        match sumCounterE flat c.2 (·.harmful) with
        | .error _ => .error flat
        | .ok ta =>
          let si := c.2.headD 0
          let sp := flatGet flat si
          let flat' := flat.set si (sp.1, { sp.2 with helpful := some th, harmful := some ta })
          mergeComponents flat' rest (acc ++ c.2.tail)

/-- Entries of the (updated) flat list belonging to section `n`, in order. -/
def takeSection (flat : List (String × Entry)) (n : String) : List Entry :=
  (flat.filter (·.1 = n)).map (·.2)

/-- The removal loop: every canonical key is reassigned to its surviving
entries (which also inserts previously missing canonical keys, empty, at the
end); non-canonical keys are untouched. -/
def removePhase (secs : Sections) (flat : List (String × Entry)) (toRemove : List Nat) :
    Sections :=
  let kept := (flat.enum.filter (fun q => ¬ q.1 ∈ toRemove)).map (·.2)
  completeSections
    (secs.map (fun q => if q.1 ∈ sectionNames then (q.1, takeSection kept q.1) else q))

/-- What the `except` branch returns after a `KeyError` inside the merge loop:
the same sections, with the in-place counter mutations of the components
already processed showing through (no entry removed, no key added). -/
def dedupErrorSections (secs : Sections) (flat : List (String × Entry)) : Sections :=
  secs.map (fun q => if q.1 ∈ sectionNames then (q.1, takeSection flat q.1) else q)

/-- `run_deduplication(playbook, threshold)` as a function of the external
environment.  Failures before any mutation (missing dependencies, a raising
`texts` comprehension, a raising provider call) return the playbook as is. -/
def run_deduplication (p : Playbook) (thresholdArg : Option Rat) (env : DedupEnv) : Playbook :=
  if ¬ env.available then p
  else
    let θ := resolveThreshold thresholdArg env.envThreshold
    let flat := flattenPlaybook p.sections
    if flat.length < 2 then p
    else
      if flat.any (fun fe => fe.2.text.isNone) then p
      else
        match env.encode with
        | .failure => p
        | .vecs vecs =>
          let n := flat.length
          let parent := buildParent n (simOf vecs) θ
          let comps := componentsOf parent n
          match mergeComponents flat comps [] with
          | .error flatPartial =>
              { p with sections := dedupErrorSections p.sections flatPartial }
          | .ok (flat2, toRemove) =>
              { p with sections := removePhase p.sections flat2 toRemove }

/-! ## Spec-words ID generator (for the refinement comparison of claim C3) -/

/-- Modelled from the spec: a suffix parse that accepts only
`{slug}-{exactly three digits}`, the pattern claim C3 says the scan uses. -/
def parseSlugNum3Spec (slug name : String) : Option Nat :=
  let pre := slug.data ++ ['-']
  if pre.isPrefixOf name.data then
    let ds := name.data.drop pre.length
    if ds.length = 3 then parseDigits ds else none
  else none

/-- Modelled from the spec: `generate_id` restricted to 3-digit suffixes. -/
def generate_keypoint_name_spec (sectionEntries : List Entry) (slug : String) : String :=
  let maxNum := sectionEntries.foldl
    (fun m e =>
      match parseSlugNum3Spec slug (e.name.getD "") with
      | some k => max m k
      | none => m) 0
  slug ++ "-" ++ pad3 (maxNum + 1)

/-! ## Union-find semantics (specification notions for the dedup theorems) -/

/-- `parent[x]` (an in-range read everywhere the code performs one). -/
def pGet (parent : List Nat) (x : Nat) : Nat := parent.getD x x

/-- `x` is a root of the forest. -/
def isRootP (parent : List Nat) (x : Nat) : Prop := pGet parent x = x

/-- Follow parent pointers `k` times. -/
def iterP (parent : List Nat) : Nat → Nat → Nat
  | 0, x => x
  | k + 1, x => iterP parent k (pGet parent x)

/-- The non-mutating root lookup that specifies `ufFind`. -/
def rootSpec (parent : List Nat) : Nat → Nat → Nat
  | 0, x => x
  | fuel + 1, x => if pGet parent x = x then x else rootSpec parent fuel (pGet parent x)

/-- `x`'s parent chain reaches the root `r`. -/
def reaches (parent : List Nat) (x r : Nat) : Prop :=
  ∃ k, iterP parent k x = r ∧ isRootP parent r

/-- The union-find forest invariant: in-range pointers and an acyclicity
measure. -/
def UFinv (parent : List Nat) : Prop :=
  (∀ x, x < parent.length → pGet parent x < parent.length) ∧
  ∃ d : Nat → Nat, ∀ x, x < parent.length → pGet parent x ≠ x → d (pGet parent x) < d x

/-- The similarity graph the union loop feeds from: the pairs `(i, j)` with
`i < j < n` whose similarity reaches the threshold. -/
def pairAdj (n : Nat) (sim : Nat → Nat → Rat) (θ : Rat) (u v : Nat) : Prop :=
  u < v ∧ v < n ∧ sim u v ≥ θ

/-- `x` and `y` are put into the same component group. -/
def inSameComponent (comps : List (Nat × List Nat)) (x y : Nat) : Prop :=
  ∃ c ∈ comps, x ∈ c.2 ∧ y ∈ c.2

/-- `x` and `y` hang under the same root of the forest. -/
def sameRoot (parent : List Nat) (x y : Nat) : Prop :=
  ∃ r, reaches parent x r ∧ reaches parent y r

/-! ## Well-formedness predicates and concrete instances used in theorems -/

/-- An entry whose dict carries all four data-model keys. -/
def entryWF (e : Entry) : Bool :=
  e.name.isSome && e.text.isSome && e.helpful.isSome && e.harmful.isSome

/-- Every entry of every section is well-formed. -/
def sectionsWF (secs : Sections) : Bool :=
  secs.all (fun p => p.2.all entryWF)

/-- A fully-formed entry (shorthand for instances). -/
def mkEntry (nm t : String) (h f : Int) : Entry := ⟨some nm, some t, some h, some f, none⟩

/-- The five canonical sections, all empty. -/
def emptySections : Sections := sectionNames.map (fun n => (n, []))

/-- A loaded record whose `sections` dict carries a non-canonical key. -/
def c2Input : LoadInput := .record ⟨none, none, some [("BOGUS", [])], none⟩

/-- A sections-format record with only canonical keys. -/
def c2OkInput : LoadInput := .record ⟨none, none, some [("OTHERS", [])], none⟩

/-- The playbook of the pruning witness: one entry per boundary row. -/
def c5Playbook : Playbook :=
  ⟨some "1.0", none,
    [("PATTERNS & APPROACHES", [mkEntry "pat-001" "a" 0 2, mkEntry "pat-002" "b" 0 3]),
     ("MISTAKES TO AVOID", [mkEntry "mis-001" "c" 3 3]),
     ("USER PREFERENCES", [mkEntry "pref-001" "d" 10 4]),
     ("PROJECT CONTEXT", []),
     ("OTHERS", [mkEntry "oth-001" "e" 0 0])]⟩

/-- The playbook of the atomicity witness. -/
def c4Playbook : Playbook :=
  ⟨some "1.0", none,
    [("PATTERNS & APPROACHES", [mkEntry "pat-001" "a" 1 0]),
     ("MISTAKES TO AVOID", []), ("USER PREFERENCES", []), ("PROJECT CONTEXT", []),
     ("OTHERS", [])]⟩

/-- An ADD operation with blank text (a validation failure). -/
def c4BlankAdd : OpFields := ⟨"ADD", some "   ", none, none, none, none, none⟩

/-- An UPDATE operation against a target id that exists in no entry. -/
def c4UnknownUpdate : OpFields := ⟨"UPDATE", some "new", none, none, none, some "zzz", none⟩

/-- The sections of the UPDATE frame witness. -/
def c8Sections : Sections :=
  [("PATTERNS & APPROACHES", [mkEntry "pat-001" "a" 1 0, mkEntry "pat-002" "b" 3 2]),
   ("MISTAKES TO AVOID", []), ("USER PREFERENCES", []), ("PROJECT CONTEXT", []),
   ("OTHERS", [mkEntry "oth-001" "c" 0 0])]

/-- An UPDATE on an existing entry. -/
def c8Op : OpFields := ⟨"UPDATE", some "newtext", none, none, none, some "pat-002", none⟩

/-- An UPDATE whose target names no entry. -/
def c8OpMissing : OpFields := ⟨"UPDATE", some "newtext", none, none, none, some "zzz", none⟩

/-- The sections of the duplicate-source MERGE theorem: `pat-001` is the
duplicated source id; its counters and both texts are arbitrary. -/
def c10Sections (h f : Int) (ta tb : String) : Sections :=
  [("PATTERNS & APPROACHES",
    [⟨some "pat-001", some ta, some h, some f, none⟩,
     ⟨some "pat-002", some tb, some 1, some 2, none⟩]),
   ("MISTAKES TO AVOID", []), ("USER PREFERENCES", []), ("PROJECT CONTEXT", []),
   ("OTHERS", [])]

/-- A MERGE whose `source_ids` lists the same existing entry twice. -/
def c10MergeOp : OpFields :=
  ⟨"MERGE", none, none, some ["pat-001", "pat-001"], some "m", none, none⟩

/-- A MERGE whose `source_ids` lists the same existing entry three times. -/
def c10MergeOp3 : OpFields :=
  ⟨"MERGE", none, none, some ["pat-001", "pat-001", "pat-001"], some "m", none, none⟩

/-- The playbook of the precedence witness. -/
def c7Playbook : Playbook :=
  ⟨some "1.0", none,
    [("PATTERNS & APPROACHES", [mkEntry "pat-001" "a" 5 1]),
     ("MISTAKES TO AVOID", []), ("USER PREFERENCES", []), ("PROJECT CONTEXT", []),
     ("OTHERS", [])]⟩

/-- The playbook of the dedup-atomicity failing input: two well-formed similar
entries (`A`, `B`), a second similar pair (`C`, `D`) whose second member
carries no counter keys — a load-reachable sections-format state. -/
def c1Playbook : Playbook :=
  ⟨some "1.0", none,
    [("PATTERNS & APPROACHES", []), ("MISTAKES TO AVOID", []), ("USER PREFERENCES", []),
     ("PROJECT CONTEXT", []),
     ("OTHERS",
       [mkEntry "oth-001" "A" 5 1, mkEntry "oth-002" "B" 3 2, mkEntry "oth-003" "C" 2 2,
        ⟨some "oth-004", some "D", none, none, none⟩])]⟩

/-- Unit embeddings making `A ~ B` and `C ~ D` similar (dot 1) and the cross
pairs dissimilar (dot 0). -/
def c1Vecs : List (List Rat) := [[1, 0], [1, 0], [0, 1], [0, 1]]

/-- The playbook of the dedup transitivity example: three entries of one
section whose pairwise similarities are 0.90 (A–B), 0.88 (B–C) and 0.80
(A–C). -/
def c6Playbook : Playbook :=
  ⟨some "1.0", none,
    [("PATTERNS & APPROACHES",
      [mkEntry "pat-001" "alpha" 1 0, mkEntry "pat-002" "beta" 2 1,
       mkEntry "pat-003" "gamma" 4 2]),
     ("MISTAKES TO AVOID", []), ("USER PREFERENCES", []), ("PROJECT CONTEXT", []),
     ("OTHERS", [])]⟩

/-- Embeddings for the transitivity example: dots 9/10, 22/25 and 4/5. -/
def c6Vecs : List (List Rat) :=
  [[1, 0, 0], [9/10, 1, 0], [8/10, 16/100, 0]]

/-- A dedup environment with the providers importable, the example embeddings,
and no threshold override (so the default 0.85 applies). -/
def c6Env : DedupEnv := ⟨true, .vecs c6Vecs, none⟩

/-- What the transitivity example must produce: the three entries collapse
into the first one, its counters the sums 7 and 3, text and name unchanged. -/
def c6Expected : Playbook :=
  ⟨some "1.0", none,
    [("PATTERNS & APPROACHES", [mkEntry "pat-001" "alpha" 7 3]),
     ("MISTAKES TO AVOID", []), ("USER PREFERENCES", []), ("PROJECT CONTEXT", []),
     ("OTHERS", [])]⟩

/-- A two-entry flat list (all keys present) for the merge witness. -/
def c6WitnessFlat : List (String × Entry) :=
  [("OTHERS", mkEntry "oth-001" "u" 1 2), ("OTHERS", mkEntry "oth-002" "v" 3 4)]

/-- Whether a load input is a sections-format record with only canonical keys
(the shapes for which the amended claim C2 asserts exact key equality). -/
def noExtraSectionKeys : LoadInput → Prop
  | .record r =>
    match r.sections with
    | some secs => ∀ q ∈ secs, q.1 ∈ sectionNames
    | none => True
  | _ => True

instance : DecidablePred noExtraSectionKeys := by
  intro input
  cases input with
  | record r =>
    cases hr : r.sections with
    | some secs => exact decidable_of_iff (∀ q ∈ secs, q.1 ∈ sectionNames) (by simp [noExtraSectionKeys, hr])
    | none => exact decidable_of_iff True (by simp [noExtraSectionKeys, hr])
  | noFile => exact decidable_of_iff True (by simp [noExtraSectionKeys])
  | unparseable => exact decidable_of_iff True (by simp [noExtraSectionKeys])

/-! ## Helper lemmas -/

instance {ε α : Type} [DecidableEq ε] [DecidableEq α] : DecidableEq (Except ε α) :=
  fun a b =>
    match a, b with
    | .ok x, .ok y => decidable_of_iff (x = y) (by simp)
    | .error x, .error y => decidable_of_iff (x = y) (by simp)
    | .ok _, .error _ => isFalse (by simp)
    | .error _, .ok _ => isFalse (by simp)

theorem foldl_max_match_eq (l : List (Option Nat)) (m : Nat) :
    l.foldl (fun acc o => match o with | some k => max acc k | none => acc) m
      = l.reduceOption.foldl max m := by
  induction l generalizing m with
  | nil => rfl
  | cons hd tl ih => cases hd <;> simp [List.reduceOption, ih]

theorem gen_name_characterization (es : List Entry) (slug : String) :
    es.foldl
        (fun m e =>
          match parseSlugNum slug (e.name.getD "") with
          | some k => max m k
          | none => m) 0
      = (es.map (fun e => parseSlugNum slug (e.name.getD ""))).reduceOption.foldl max 0 := by
  rw [← foldl_max_match_eq, List.foldl_map]

theorem mem_of_mem_sectionNames_completeSections (secs : Sections) (n : String)
    (hn : n ∈ sectionNames) : n ∈ (completeSections secs).map Prod.fst := by
  by_cases h : secs.any (·.1 = n) = true
  · rw [List.any_eq_true] at h
    obtain ⟨q, hq, hqn⟩ := h
    rw [decide_eq_true_eq] at hqn
    exact List.mem_map.mpr ⟨q, List.mem_append_left _ hq, hqn⟩
  · refine List.mem_map.mpr ⟨(n, []), List.mem_append_right _ ?_, rfl⟩
    refine List.mem_map.mpr ⟨n, List.mem_filter.mpr ⟨hn, ?_⟩, rfl⟩
    rw [decide_eq_true_eq]
    exact h

theorem completeSections_of_all_present (secs : Sections)
    (h : ∀ n ∈ sectionNames, secs.any (·.1 = n) = true) : completeSections secs = secs := by
  have hfil : sectionNames.filter (fun n => ¬ secs.any (·.1 = n)) = [] := by
    refine List.filter_eq_nil_iff.mpr ?_
    intro n hn
    simp [h n hn]
  unfold completeSections
  rw [hfil]
  simp

theorem load_playbook_all_canonical (input : LoadInput) :
    ∀ n ∈ sectionNames, ((load_playbook input).sections.any (·.1 = n) = true) := by
  intro n hn
  cases input with
  | noFile =>
    simp only [load_playbook, _default_playbook, List.any_eq_true, decide_eq_true_eq]
    exact ⟨(n, []), List.mem_map.mpr ⟨n, hn, rfl⟩, rfl⟩
  | unparseable =>
    simp only [load_playbook, _default_playbook, List.any_eq_true, decide_eq_true_eq]
    exact ⟨(n, []), List.mem_map.mpr ⟨n, hn, rfl⟩, rfl⟩
  | record r =>
    cases hr : r.sections with
    | some secs =>
      simp only [load_playbook, hr]
      have := mem_of_mem_sectionNames_completeSections secs n hn
      obtain ⟨q, hq, hqn⟩ := List.mem_map.mp this
      exact List.any_eq_true.mpr ⟨q, hq, by simpa using hqn⟩
    | none =>
      cases hk : r.keyPoints with
      | none =>
        simp only [load_playbook, hr, hk, _default_playbook, List.any_eq_true,
          decide_eq_true_eq]
        exact ⟨(n, []), List.mem_map.mpr ⟨n, hn, rfl⟩, rfl⟩
      | some items =>
        simp only [load_playbook, hr, hk, List.any_eq_true, decide_eq_true_eq]
        exact ⟨(n, if n = "OTHERS" then (items.foldl migrateItem ([], [])).1 else []),
          List.mem_map.mpr ⟨n, hn, rfl⟩, rfl⟩

/-! ## Claim theorems -/

/-- C3, counterexample: the scan is `{slug}-{any digit run}`, not
`{slug}-{3-digit zero-padded number}`.  On a section holding only `pat-1234`
the code returns `pat-1235`, while a scan that ignored four-digit suffixes (the
spec-words generator) would return `pat-001`. -/
theorem claim_C3_counterexample :
    generate_keypoint_name [⟨some "pat-1234", some "a", some 0, some 0, none⟩] "pat"
        = "pat-1235" ∧
    generate_keypoint_name [⟨some "pat-1", some "a", some 0, some 0, none⟩] "pat"
        = "pat-002" ∧
    generate_keypoint_name_spec [⟨some "pat-1234", some "a", some 0, some 0, none⟩] "pat"
        = "pat-001" ∧
    generate_keypoint_name [⟨some "pat-1234", some "a", some 0, some 0, none⟩] "pat"
      ≠ generate_keypoint_name_spec [⟨some "pat-1234", some "a", some 0, some 0, none⟩] "pat" :=
  ⟨by decide, by decide, by decide, by decide⟩

/-- C3, amended: the ID generator scans entry names matching
`{slug}-{digits}` with **any** digit count (so `pat-1` counts as 1 and
`pat-1234` as 1234), ignores names that do not match (legacy `kpt_` and bare
numeric names among them), and returns `{slug}-{max+1}` zero-padded to at
least three digits. -/
theorem claim_C3_amended :
    (∀ (es : List Entry) (slug : String),
      generate_keypoint_name es slug =
        slug ++ "-" ++
          pad3 (((es.map (fun e => parseSlugNum slug (e.name.getD ""))).reduceOption.foldl
            max 0) + 1)) ∧
    parseSlugNum "pat" "pat-1" = some 1 ∧
    parseSlugNum "pat" "pat-1234" = some 1234 ∧
    parseSlugNum "pat" "pat-007" = some 7 ∧
    parseSlugNum "oth" "kpt_007" = none ∧
    parseSlugNum "oth" "123" = none ∧
    parseSlugNum "pat" "pat-" = none ∧
    parseSlugNum "pat" "pat-12x" = none ∧
    pad3 5 = "005" ∧ pad3 42 = "042" ∧ pad3 1234 = "1234" := by
  refine ⟨?_, by decide, by decide, by decide, by decide, by decide, by decide, by decide,
    by decide, by decide, by decide⟩
  intro es slug
  simp only [generate_keypoint_name, gen_name_characterization]

/-- C5: `prune_harmful` removes, in every section, exactly the entries with
`harmful >= 3` and `harmful > helpful` (for well-formed playbooks the stderr
report cannot raise, so the call succeeds); the boundary rows of the spec's
table evaluate as stated, and a zero-evaluation entry is never pruned. -/
theorem claim_C5_prune :
    (∀ p : Playbook, sectionsWF p.sections = true →
      prune_harmful p =
        .ok { p with sections :=
          p.sections.map (fun s => (s.1, s.2.filter (fun e => !prunePred e))) }) ∧
    (∀ e : Entry, prunePred e = true ↔
      3 ≤ e.harmful.getD 0 ∧ e.helpful.getD 0 < e.harmful.getD 0) ∧
    (∀ (nm t : Option String) (sc : Option Int),
      prunePred ⟨nm, t, some 0, some 2, sc⟩ = false ∧
      prunePred ⟨nm, t, some 0, some 3, sc⟩ = true ∧
      prunePred ⟨nm, t, some 3, some 3, sc⟩ = false ∧
      prunePred ⟨nm, t, some 10, some 4, sc⟩ = false ∧
      prunePred ⟨nm, t, some 0, some 0, sc⟩ = false) ∧
    (∀ e : Entry, e.helpful = some 0 → e.harmful = some 0 → prunePred e = false) := by
  refine ⟨?_, ?_, ?_, ?_⟩
  · intro p hwf
    unfold prune_harmful
    rw [if_neg]
    · rfl
    · intro hcontra
      rw [List.any_eq_true] at hcontra
      obtain ⟨e, he, hbad⟩ := hcontra
      unfold prunedOf at he
      rw [List.mem_flatten] at he
      obtain ⟨l, hl, hel⟩ := he
      obtain ⟨s, hs, rfl⟩ := List.mem_map.mp hl
      have hw : entryWF e = true := by
        have := (List.all_eq_true.mp hwf) s hs
        exact (List.all_eq_true.mp this) e (List.mem_of_mem_filter hel)
      unfold entryWF at hw
      simp only [Bool.and_eq_true, Option.isSome_iff_exists] at hw
      obtain ⟨⟨⟨⟨a, ha⟩, b, hb⟩, c, hc⟩, -⟩ := hw
      simp [ha, hb, hc] at hbad
  · intro e
    simp [prunePred]
  · intro nm t sc
    refine ⟨by simp [prunePred], by simp [prunePred], by simp [prunePred],
      by simp [prunePred], by simp [prunePred]⟩
  · intro e h1 h2
    simp [prunePred, h1, h2]

/-- C5, witness: the boundary playbook prunes exactly `(0,3)` and keeps the
other four rows. -/
theorem claim_C5_prune_witness :
    sectionsWF c5Playbook.sections = true ∧
    prune_harmful c5Playbook =
      .ok { c5Playbook with sections :=
        c5Playbook.sections.map (fun s => (s.1, s.2.filter (fun e => !prunePred e))) } ∧
    prune_harmful c5Playbook =
      .ok ⟨some "1.0", none,
        [("PATTERNS & APPROACHES", [mkEntry "pat-001" "a" 0 2]),
         ("MISTAKES TO AVOID", [mkEntry "mis-001" "c" 3 3]),
         ("USER PREFERENCES", [mkEntry "pref-001" "d" 10 4]),
         ("PROJECT CONTEXT", []),
         ("OTHERS", [mkEntry "oth-001" "e" 0 0])]⟩ :=
  ⟨by decide, claim_C5_prune.1 c5Playbook (by decide), by decide⟩

/-- C2, counterexample: a sections-format record with a non-canonical key
loads to a sections map with six keys — the extra key is preserved, so the
key set is not "exactly the five canonical names". -/
theorem claim_C2_counterexample :
    (load_playbook c2Input).sections.map Prod.fst
      = ["BOGUS", "PATTERNS & APPROACHES", "MISTAKES TO AVOID", "USER PREFERENCES",
         "PROJECT CONTEXT", "OTHERS"] ∧
    ¬ ("BOGUS" ∈ sectionNames) :=
  ⟨by decide, by decide⟩

/-- C2, amended: after `load_playbook` on any input shape, the sections map
contains **at least** all five canonical names; the key set is exactly the
canonical five whenever the input is not a sections-format record with
non-canonical keys (missing file, unparseable, legacy flat, no-key, or a
sections dict whose keys are all canonical) — extra non-canonical input keys
are preserved, not removed. -/
theorem claim_C2_amended :
    ∀ input : LoadInput,
      (∀ n ∈ sectionNames, n ∈ (load_playbook input).sections.map Prod.fst) ∧
      (noExtraSectionKeys input →
        ∀ m ∈ (load_playbook input).sections.map Prod.fst, m ∈ sectionNames) := by
  intro input
  constructor
  · intro n hn
    have := load_playbook_all_canonical input n hn
    rw [List.any_eq_true] at this
    obtain ⟨q, hq, hqn⟩ := this
    exact List.mem_map.mpr ⟨q, hq, by simpa using hqn⟩
  · intro hno m hm
    obtain ⟨q, hq, rfl⟩ := List.mem_map.mp hm
    cases input with
    | noFile =>
      simp only [load_playbook, _default_playbook] at hq
      obtain ⟨n, hn, rfl⟩ := List.mem_map.mp hq
      exact hn
    | unparseable =>
      simp only [load_playbook, _default_playbook] at hq
      obtain ⟨n, hn, rfl⟩ := List.mem_map.mp hq
      exact hn
    | record r =>
      cases hr : r.sections with
      | some secs =>
        simp only [load_playbook, hr] at hq
        unfold completeSections at hq
        rcases List.mem_append.mp hq with h | h
        · have hall : ∀ q ∈ secs, q.1 ∈ sectionNames := by
            simpa [noExtraSectionKeys, hr] using hno
          exact hall q h
        · obtain ⟨n, hn, rfl⟩ := List.mem_map.mp h
          exact List.mem_of_mem_filter hn
      | none =>
        cases hk : r.keyPoints with
        | none =>
          simp only [load_playbook, hr, hk, _default_playbook] at hq
          obtain ⟨n, hn, rfl⟩ := List.mem_map.mp hq
          exact hn
        | some items =>
          simp only [load_playbook, hr, hk] at hq
          obtain ⟨n, hn, rfl⟩ := List.mem_map.mp hq
          exact hn

/-- C2, amended, witness: a canonical-keys sections record loads to exactly
the canonical key set. -/
theorem claim_C2_amended_witness :
    ("OTHERS" ∈ (load_playbook c2OkInput).sections.map Prod.fst) ∧
    (∀ m ∈ (load_playbook c2OkInput).sections.map Prod.fst, m ∈ sectionNames) := by
  have h := claim_C2_amended c2OkInput
  exact ⟨h.1 "OTHERS" (by decide), h.2 (by decide)⟩

/-- C9: load→save→load round trip — for any persisted state (current, legacy
flat, dual-key, missing or unparseable), saving the first load and loading
again yields identical `sections` and `version`, and the saved record never
carries a `key_points` key. -/
theorem claim_C9_roundtrip :
    ∀ (input : LoadInput) (now : String),
      (load_playbook (.record (save_playbook (load_playbook input) now))).sections
        = (load_playbook input).sections ∧
      (load_playbook (.record (save_playbook (load_playbook input) now))).version
        = (load_playbook input).version ∧
      (save_playbook (load_playbook input) now).keyPoints = none := by
  intro input now
  have hcomp : completeSections (load_playbook input).sections
      = (load_playbook input).sections :=
    completeSections_of_all_present _ (load_playbook_all_canonical input)
  generalize hgen : load_playbook input = p at hcomp ⊢
  refine ⟨?_, ?_, rfl⟩
  · simp [load_playbook, save_playbook, hcomp]
  · simp [load_playbook, save_playbook]

theorem except_ok_bind {ε α β : Type} (a : α) (f : α → Except ε β) :
    (Except.ok a : Except ε α) >>= f = f a := rfl

theorem except_error_bind {ε α β : Type} (e : ε) (f : α → Except ε β) :
    (Except.error e : Except ε α) >>= f = Except.error e := rfl

theorem except_pure_bind {ε α β : Type} (a : α) (f : α → Except ε β) :
    (pure a : Except ε α) >>= f = f a := rfl

theorem except_pure_eq_ok {ε α : Type} (a : α) :
    (pure a : Except ε α) = Except.ok a := rfl

theorem applyOpsLoop_skip {secs : Sections} {op : OpItem} {rest : List OpItem}
    (h : applyOneOp secs op = .ok secs) :
    applyOpsLoop secs (op :: rest) = applyOpsLoop secs rest := by
  simp [applyOpsLoop, h, except_ok_bind]

/-- C4: the batch runs against a private copy — when an unexpected exception
escapes operation processing (here: a non-dict operation raising
`AttributeError`), `apply_structured_operations` returns the original playbook
unchanged, and the `update_playbook_data` operations path likewise falls back
to the original playbook before applying evaluations and pruning.  Individual
validation failures (blank ADD text, too-few MERGE source ids, unknown
UPDATE/DELETE target, unrecognized type) never raise: they skip exactly the
offending operation, and the rest of the (truncated) batch runs from the same
state. -/
theorem claim_C4_atomicity :
    (∀ (p : Playbook) (ops : List OpItem) (e : PyErr),
      _apply_curator_operations p ops = .error e → apply_structured_operations p ops = p) ∧
    (∀ (p : Playbook) (er : ExtractionResult) (ops : List OpItem) (e : PyErr),
      er.operations = some (.list ops) → ops ≠ [] →
      _apply_curator_operations p ops = .error e →
      update_playbook_data p er = (do
        let secs2 ← evalPhaseE p.sections (er.evaluations.getD [])
        pure { p with sections := pruneSections secs2 })) ∧
    (∀ (secs : Sections) (rest : List OpItem),
      applyOpsLoop secs (.nonDict :: rest) = .error .attributeError) ∧
    (∀ (secs : Sections) (o : OpFields) (rest : List OpItem),
      o.type = "ADD" → isBlank (o.text.getD "") = true →
      applyOpsLoop secs (.dict o :: rest) = applyOpsLoop secs rest) ∧
    (∀ (secs : Sections) (o : OpFields) (rest : List OpItem),
      o.type = "MERGE" → (o.source_ids.getD []).length < 2 →
      applyOpsLoop secs (.dict o :: rest) = applyOpsLoop secs rest) ∧
    (∀ (secs : Sections) (o : OpFields) (rest : List OpItem),
      o.type = "UPDATE" → isBlank (o.target_id.getD "") = false →
      isBlank (o.text.getD "") = false →
      findLoc secs (o.target_id.getD "") = .ok none →
      applyOpsLoop secs (.dict o :: rest) = applyOpsLoop secs rest) ∧
    (∀ (secs : Sections) (o : OpFields) (rest : List OpItem),
      o.type = "DELETE" → isBlank (o.target_id.getD "") = false →
      findLoc secs (o.target_id.getD "") = .ok none →
      applyOpsLoop secs (.dict o :: rest) = applyOpsLoop secs rest) ∧
    (∀ (secs : Sections) (o : OpFields) (rest : List OpItem),
      o.type ∉ (["ADD", "MERGE", "UPDATE", "DELETE"] : List String) →
      applyOpsLoop secs (.dict o :: rest) = applyOpsLoop secs rest) := by
  refine ⟨?_, ?_, ?_, ?_, ?_, ?_, ?_, ?_⟩
  · intro p ops e h
    unfold apply_structured_operations
    split
    · rfl
    · rw [h]
  · intro p er ops e hops hne herr
    have hemp : ops.isEmpty = false := by
      cases ops with
      | nil => exact absurd rfl hne
      | cons a l => rfl
    simp only [update_playbook_data, hops, hemp, Bool.false_eq_true, if_false, herr,
      except_pure_bind]
  · intro secs rest
    rfl
  · intro secs o rest hty hblank
    refine applyOpsLoop_skip ?_
    simp [applyOneOp, hty, applyADD, hblank]
  · intro secs o rest hty hlt
    refine applyOpsLoop_skip ?_
    simp [applyOneOp, hty, applyMERGE, hlt]
  · intro secs o rest hty hb1 hb2 hfind
    refine applyOpsLoop_skip ?_
    simp [applyOneOp, hty, applyUPDATE, hb1, hb2, hfind, except_ok_bind, except_pure_eq_ok]
  · intro secs o rest hty hb1 hfind
    refine applyOpsLoop_skip ?_
    simp [applyOneOp, hty, applyDELETE, hb1, hfind, except_ok_bind, except_pure_eq_ok]
  · intro secs o rest hty
    have h1 : o.type ≠ "ADD" := fun h => hty (by simp [h])
    have h2 : o.type ≠ "MERGE" := fun h => hty (by simp [h])
    have h3 : o.type ≠ "UPDATE" := fun h => hty (by simp [h])
    have h4 : o.type ≠ "DELETE" := fun h => hty (by simp [h])
    refine applyOpsLoop_skip ?_
    simp [applyOneOp, h1, h2, h3, h4]

/-- C4, witness: a non-dict second operation rolls the whole batch (including
the valid first ADD) back to the original playbook; a blank ADD and an
unknown-target UPDATE skip only themselves. -/
theorem claim_C4_atomicity_witness :
    _apply_curator_operations c4Playbook
        [.dict ⟨"ADD", some "b", none, none, none, none, none⟩, .nonDict]
      = .error .attributeError ∧
    apply_structured_operations c4Playbook
        [.dict ⟨"ADD", some "b", none, none, none, none, none⟩, .nonDict]
      = c4Playbook ∧
    applyOpsLoop c4Playbook.sections [.dict c4BlankAdd]
      = applyOpsLoop c4Playbook.sections [] ∧
    applyOpsLoop c4Playbook.sections [.dict c4UnknownUpdate]
      = applyOpsLoop c4Playbook.sections [] := by
  refine ⟨by decide, ?_, ?_, ?_⟩
  · exact claim_C4_atomicity.1 c4Playbook
      [.dict ⟨"ADD", some "b", none, none, none, none, none⟩, .nonDict]
      .attributeError (by decide)
  · exact claim_C4_atomicity.2.2.2.1 c4Playbook.sections c4BlankAdd [] rfl (by decide)
  · exact claim_C4_atomicity.2.2.2.2.2.1 c4Playbook.sections c4UnknownUpdate [] rfl
      (by decide) (by decide) (by decide)

theorem modifyIdx_length {α : Type} (l : List α) (n : Nat) (f : α → α) :
    (modifyIdx l n f).length = l.length := by
  induction l generalizing n with
  | nil => rfl
  | cons a rest ih =>
    cases n with
    | zero => rfl
    | succ m => simp [modifyIdx, ih]

theorem modifyIdx_getD_ne {α : Type} (l : List α) (n k : Nat) (f : α → α) (d : α)
    (h : k ≠ n) : (modifyIdx l n f).getD k d = l.getD k d := by
  induction l generalizing n k with
  | nil => rfl
  | cons a rest ih =>
    cases n with
    | zero =>
      cases k with
      | zero => exact absurd rfl h
      | succ kk => simp [modifyIdx]
    | succ m =>
      cases k with
      | zero => simp [modifyIdx]
      | succ kk =>
        simp only [modifyIdx, List.getD_cons_succ]
        exact ih m kk (fun hc => h (by rw [hc]))

theorem modifyIdx_getD_eq {α : Type} (l : List α) (n : Nat) (f : α → α) (d : α)
    (h : n < l.length) : (modifyIdx l n f).getD n d = f (l.getD n d) := by
  induction l generalizing n with
  | nil => simp at h
  | cons a rest ih =>
    cases n with
    | zero => simp [modifyIdx]
    | succ m =>
      simp only [modifyIdx, List.getD_cons_succ]
      exact ih m (by simpa using h)

theorem findInEntries_bound (es : List Entry) (tid : String) (j : Nat)
    (h : findInEntries es tid = .ok (some j)) : j < es.length := by
  induction es generalizing j with
  | nil => simp [findInEntries] at h
  | cons e rest ih =>
    cases hn : e.name with
    | none => simp [findInEntries, hn] at h
    | some nm =>
      by_cases he : nm = tid
      · simp [findInEntries, hn, he] at h
        simp [← h]
      · simp only [findInEntries, hn, he, if_false] at h
        cases hr : findInEntries rest tid with
        | error er => rw [hr] at h; cases h
        | ok o =>
          rw [hr] at h
          cases o with
          | none => simp [Except.map] at h
          | some jj =>
            simp only [Except.map, Option.map, Except.ok.injEq, Option.some.injEq] at h
            subst h
            simpa using Nat.succ_lt_succ (ih jj hr)

theorem findLoc_bound (secs : Sections) (tid : String) (i j : Nat)
    (h : findLoc secs tid = .ok (some (i, j))) :
    i < secs.length ∧ j < (secs.getD i ("", [])).2.length := by
  induction secs generalizing i j with
  | nil => simp [findLoc] at h
  | cons sp rest ih =>
    obtain ⟨n, es⟩ := sp
    unfold findLoc at h
    cases hf : findInEntries es tid with
    | error er => rw [hf] at h; cases h
    | ok o =>
      rw [hf, except_ok_bind] at h
      cases o with
      | some jj =>
        simp only [except_pure_eq_ok, Except.ok.injEq, Option.some.injEq,
          Prod.mk.injEq] at h
        obtain ⟨h1, h2⟩ := h
        subst h1; subst h2
        exact ⟨Nat.succ_pos _, by simpa using findInEntries_bound es tid jj hf⟩
      | none =>
        cases hr : findLoc rest tid with
        | error er => rw [hr] at h; cases h
        | ok o2 =>
          rw [hr, except_ok_bind] at h
          cases o2 with
          | none => simp [except_pure_eq_ok] at h
          | some q =>
            obtain ⟨ii, jj⟩ := q
            simp only [except_pure_eq_ok, Except.ok.injEq, Option.some.injEq,
              Prod.mk.injEq] at h
            obtain ⟨h1, h2⟩ := h
            subst h1; subst h2
            obtain ⟨h1, h2⟩ := ih ii jj hr
            exact ⟨Nat.succ_lt_succ h1, by simpa using h2⟩

/-- C8: an UPDATE with non-blank target and text on an existing entry changes
only that entry's `text`: the result has the same number of sections, every
other section and entry is untouched, the section name and length are
unchanged, and the target entry equals the old one with only `text` replaced
(so `name`, `helpful`, `harmful` and section membership are unchanged); an
UPDATE whose target names no entry is a no-op. -/
theorem claim_C8_update_frame :
    ∀ (secs : Sections) (o : OpFields) (tid t : String),
      o.type = "UPDATE" → o.target_id = some tid → o.text = some t →
      isBlank tid = false → isBlank t = false →
      (∀ i j : Nat, findLoc secs tid = .ok (some (i, j)) →
        ((secs.getD i ("", [])).2.getD j default).text.isSome = true →
        ∃ secs' : Sections,
          applyOneOp secs (.dict o) = .ok secs' ∧
          secs'.length = secs.length ∧
          (∀ k, k ≠ i → secs'.getD k ("", []) = secs.getD k ("", [])) ∧
          (secs'.getD i ("", [])).1 = (secs.getD i ("", [])).1 ∧
          (secs'.getD i ("", [])).2.length = (secs.getD i ("", [])).2.length ∧
          (∀ m, m ≠ j → (secs'.getD i ("", [])).2.getD m default
            = (secs.getD i ("", [])).2.getD m default) ∧
          (secs'.getD i ("", [])).2.getD j default
            = { (secs.getD i ("", [])).2.getD j default with text := some t }) ∧
      (findLoc secs tid = .ok none → applyOneOp secs (.dict o) = .ok secs) := by
  intro secs o tid t hty hti hte hb1 hb2
  constructor
  · intro i j hfind hsome
    obtain ⟨hi, hj⟩ := findLoc_bound secs tid i j hfind
    obtain ⟨tx, htx⟩ := Option.isSome_iff_exists.mp hsome
    refine ⟨modifyIdx secs i (fun sp => (sp.1, modifyIdx sp.2 j
      (fun e0 => { e0 with text := some t }))), ?_, ?_, ?_, ?_, ?_, ?_, ?_⟩
    · simp only [List.getD_eq_getElem?_getD] at htx
      simp [applyOneOp, hty, applyUPDATE, hti, hte, hb1, hb2, hfind,
        except_ok_bind, htx, except_pure_eq_ok]
    · rw [modifyIdx_length]
    · intro k hk
      exact modifyIdx_getD_ne secs i k _ _ hk
    · rw [modifyIdx_getD_eq secs i _ _ hi]
    · rw [modifyIdx_getD_eq secs i _ _ hi]
      exact modifyIdx_length _ _ _
    · intro m hm
      rw [modifyIdx_getD_eq secs i _ _ hi]
      exact modifyIdx_getD_ne _ j m _ _ hm
    · rw [modifyIdx_getD_eq secs i _ _ hi]
      exact modifyIdx_getD_eq _ j _ _ hj
  · intro hfind
    simp [applyOneOp, hty, applyUPDATE, hti, hte, hb1, hb2, hfind,
      except_ok_bind, except_pure_eq_ok]

/-- C8, witness: updating `pat-002` in a concrete playbook rewrites only its
text; updating a missing id is a no-op. -/
theorem claim_C8_update_frame_witness :
    (∃ secs' : Sections,
      applyOneOp c8Sections (.dict c8Op) = .ok secs' ∧
      secs'.length = c8Sections.length ∧
      (∀ k, k ≠ 0 → secs'.getD k ("", []) = c8Sections.getD k ("", [])) ∧
      (secs'.getD 0 ("", [])).1 = (c8Sections.getD 0 ("", [])).1 ∧
      (secs'.getD 0 ("", [])).2.length = (c8Sections.getD 0 ("", [])).2.length ∧
      (∀ m, m ≠ 1 → (secs'.getD 0 ("", [])).2.getD m default
        = (c8Sections.getD 0 ("", [])).2.getD m default) ∧
      (secs'.getD 0 ("", [])).2.getD 1 default
        = { (c8Sections.getD 0 ("", [])).2.getD 1 default with text := some "newtext" }) ∧
    applyOneOp c8Sections (.dict c8OpMissing) = .ok c8Sections := by
  constructor
  · exact (claim_C8_update_frame c8Sections c8Op "pat-002" "newtext" rfl rfl rfl
      (by decide) (by decide)).1 0 1 (by decide) (by decide)
  · exact (claim_C8_update_frame c8Sections c8OpMissing "zzz" "newtext" rfl rfl rfl
      (by decide) (by decide)).2 (by decide)

/-- C10: a MERGE whose `source_ids` repeats the same existing entry passes
validation (two occurrences are two valid ids), counts that entry's counters
once per occurrence — for `[x, x]` the merged entry's counters are `2·x`, for
`[x, x, x]` they are `3·x` — and removes `x` itself only once (the second and
third removal passes are no-ops), for any counters and texts of the entries
involved. -/
theorem claim_C10_merge_duplicate_sources :
    ∀ (h f : Int) (ta tb : String),
      applyMERGE (c10Sections h f ta tb) c10MergeOp =
        .ok [("PATTERNS & APPROACHES",
          [⟨some "pat-002", some tb, some 1, some 2, none⟩,
           ⟨some "pat-003", some "m", some (2 * h), some (2 * f), none⟩]),
         ("MISTAKES TO AVOID", []), ("USER PREFERENCES", []), ("PROJECT CONTEXT", []),
         ("OTHERS", [])] ∧
      applyMERGE (c10Sections h f ta tb) c10MergeOp3 =
        .ok [("PATTERNS & APPROACHES",
          [⟨some "pat-002", some tb, some 1, some 2, none⟩,
           ⟨some "pat-003", some "m", some (3 * h), some (3 * f), none⟩]),
         ("MISTAKES TO AVOID", []), ("USER PREFERENCES", []), ("PROJECT CONTEXT", []),
         ("OTHERS", [])] := by
  intro h f ta tb
  constructor
  · have e1 : 2 * h = h + (h + 0) := by ring
    have e2 : 2 * f = f + (f + 0) := by ring
    rw [e1, e2]
    with_unfolding_all rfl
  · have e1 : 3 * h = h + (h + (h + 0)) := by ring
    have e2 : 3 * f = f + (f + (f + 0)) := by ring
    rw [e1, e2]
    with_unfolding_all rfl

theorem except_map_map {ε α β γ : Type} (x : Except ε α) (g : α → β) (h : β → γ) :
    (x.map g).map h = x.map (fun a => h (g a)) := by
  cases x <;> rfl

theorem bumpLastEntry_none (es : List Entry) (nm : String)
    (f : Entry → Except PyErr Entry)
    (h : ∀ e ∈ es, e.name ≠ some nm) : bumpLastEntry es nm f = none := by
  induction es with
  | nil => rfl
  | cons e rest ih =>
    simp only [bumpLastEntry, ih (fun e' he' => h e' (List.mem_cons_of_mem _ he'))]
    rw [if_neg (h e (List.mem_cons_self _ _))]

theorem bumpLastEntry_found (es1 : List Entry) (e : Entry) (es2 : List Entry)
    (nm : String) (f : Entry → Except PyErr Entry)
    (he : e.name = some nm) (h2 : ∀ e' ∈ es2, e'.name ≠ some nm) :
    bumpLastEntry (es1 ++ e :: es2) nm f
      = some ((f e).map (fun e' => es1 ++ e' :: es2)) := by
  induction es1 with
  | nil =>
    simp only [List.nil_append, bumpLastEntry, bumpLastEntry_none es2 nm f h2, he, if_pos]
  | cons a rest ih =>
    simp only [List.cons_append, List.append_eq, bumpLastEntry, ih, except_map_map]

theorem bumpLastSections_none (secs : Sections) (nm : String)
    (f : Entry → Except PyErr Entry)
    (h : ∀ q ∈ secs, ∀ e ∈ q.2, e.name ≠ some nm) : bumpLastSections secs nm f = none := by
  induction secs with
  | nil => rfl
  | cons q rest ih =>
    obtain ⟨n, es⟩ := q
    simp only [bumpLastSections, ih (fun q' hq' => h q' (List.mem_cons_of_mem _ hq')),
      bumpLastEntry_none es nm f (h (n, es) (List.mem_cons_self _ _))]

theorem bumpLastSections_found (pre : Sections) (n : String) (es1 : List Entry)
    (e : Entry) (es2 : List Entry) (post : Sections) (nm : String)
    (f : Entry → Except PyErr Entry)
    (he : e.name = some nm) (h2 : ∀ e' ∈ es2, e'.name ≠ some nm)
    (hpost : ∀ q ∈ post, ∀ e' ∈ q.2, e'.name ≠ some nm) :
    bumpLastSections (pre ++ (n, es1 ++ e :: es2) :: post) nm f
      = some ((f e).map (fun e' => pre ++ (n, es1 ++ e' :: es2) :: post)) := by
  induction pre with
  | nil =>
    simp only [List.nil_append, bumpLastSections, bumpLastSections_none post nm f hpost,
      bumpLastEntry_found es1 e es2 nm f he h2, except_map_map]
  | cons q rest ih =>
    obtain ⟨n0, es0⟩ := q
    simp only [List.cons_append, List.append_eq, bumpLastSections, ih, except_map_map]

/-- C7: when the `operations` key is present (bound to any value — a list,
even empty, or a non-list), the legacy `new_key_points` path is entirely
suppressed: the result does not depend on the `new_key_points` field at all.
With `operations: []` the pipeline is exactly evaluations followed by inline
pruning.  An evaluation whose rating is neither "helpful" nor "harmful", or
whose name matches no entry, is a no-op; an evaluation with a matching name
and rating "helpful"/"harmful" increments exactly that counter of that entry
by 1, leaving every other field, entry and section unchanged. -/
theorem claim_C7_operations_precedence :
    (∀ (p : Playbook) (er : ExtractionResult) (v : OpsVal) (nk : Option (List NKPItem)),
      er.operations = some v →
      update_playbook_data p er = update_playbook_data p { er with new_key_points := nk }) ∧
    (∀ (p : Playbook) (nkp : Option (List NKPItem)) (evals : Option (List EvalItem)),
      update_playbook_data p ⟨some (.list []), nkp, evals⟩ = (do
        let secs2 ← evalPhaseE p.sections (evals.getD [])
        pure { p with sections := pruneSections secs2 })) ∧
    (∀ (secs : Sections) (nm rating : String), rating ≠ "helpful" → rating ≠ "harmful" →
      evalStepE secs ⟨nm, rating⟩ = .ok secs) ∧
    (∀ (secs : Sections) (nm rating : String),
      (∀ q ∈ secs, ∀ e ∈ q.2, e.name ≠ some nm) →
      evalStepE secs ⟨nm, rating⟩ = .ok secs) ∧
    (∀ (pre : Sections) (n : String) (es1 : List Entry) (e : Entry) (es2 : List Entry)
        (post : Sections) (nm : String) (h : Int),
      e.name = some nm → e.helpful = some h →
      (∀ e' ∈ es2, e'.name ≠ some nm) →
      (∀ q ∈ post, ∀ e' ∈ q.2, e'.name ≠ some nm) →
      evalStepE (pre ++ (n, es1 ++ e :: es2) :: post) ⟨nm, "helpful"⟩
        = .ok (pre ++ (n, es1 ++ { e with helpful := some (h + 1) } :: es2) :: post)) ∧
    (∀ (pre : Sections) (n : String) (es1 : List Entry) (e : Entry) (es2 : List Entry)
        (post : Sections) (nm : String) (h : Int),
      e.name = some nm → e.harmful = some h →
      (∀ e' ∈ es2, e'.name ≠ some nm) →
      (∀ q ∈ post, ∀ e' ∈ q.2, e'.name ≠ some nm) →
      evalStepE (pre ++ (n, es1 ++ e :: es2) :: post) ⟨nm, "harmful"⟩
        = .ok (pre ++ (n, es1 ++ { e with harmful := some (h + 1) } :: es2) :: post)) := by
  refine ⟨?_, ?_, ?_, ?_, ?_, ?_⟩
  · intro p er v nk hops
    simp only [update_playbook_data, hops]
  · intro p nkp evals
    rfl
  · intro secs nm rating h1 h2
    simp [evalStepE, h1, h2]
  · intro secs nm rating hno
    unfold evalStepE
    rw [bumpLastSections_none secs nm bumpHelpful hno,
      bumpLastSections_none secs nm bumpHarmful hno]
    split <;> [skip; split] <;> rfl
  · intro pre n es1 e es2 post nm h he hh h2 hpost
    unfold evalStepE
    rw [if_pos rfl, bumpLastSections_found pre n es1 e es2 post nm bumpHelpful he h2 hpost]
    simp [bumpHelpful, hh, Except.map]
  · intro pre n es1 e es2 post nm h he hh h2 hpost
    unfold evalStepE
    rw [if_neg (show ¬ (EvalItem.rating ⟨nm, "harmful"⟩ = "helpful") by simp), if_pos rfl,
      bumpLastSections_found pre n es1 e es2 post nm bumpHarmful he h2 hpost]
    simp [bumpHarmful, hh, Except.map]

/-- C7, witness: with `operations` present and empty, `"x"` from
`new_key_points` is never added and a matching helpful evaluation still
applies; neutral ratings and unknown names are no-ops. -/
theorem claim_C7_operations_precedence_witness :
    update_playbook_data c7Playbook
        ⟨some (.list []), some [.str "x"], some [⟨"pat-001", "helpful"⟩]⟩
      = update_playbook_data c7Playbook
        ⟨some (.list []), none, some [⟨"pat-001", "helpful"⟩]⟩ ∧
    update_playbook_data c7Playbook
        ⟨some (.list []), some [.str "x"], some [⟨"pat-001", "helpful"⟩]⟩
      = .ok ⟨some "1.0", none,
          [("PATTERNS & APPROACHES", [mkEntry "pat-001" "a" 6 1]),
           ("MISTAKES TO AVOID", []), ("USER PREFERENCES", []), ("PROJECT CONTEXT", []),
           ("OTHERS", [])]⟩ ∧
    evalStepE c7Playbook.sections ⟨"pat-001", "neutral"⟩ = .ok c7Playbook.sections ∧
    evalStepE c7Playbook.sections ⟨"zzz", "helpful"⟩ = .ok c7Playbook.sections ∧
    evalStepE c7Playbook.sections ⟨"pat-001", "helpful"⟩
      = .ok [("PATTERNS & APPROACHES", [mkEntry "pat-001" "a" 6 1]),
             ("MISTAKES TO AVOID", []), ("USER PREFERENCES", []), ("PROJECT CONTEXT", []),
             ("OTHERS", [])] := by
  refine ⟨?_, by decide, ?_, ?_, ?_⟩
  · exact claim_C7_operations_precedence.1 c7Playbook
      ⟨some (.list []), some [.str "x"], some [⟨"pat-001", "helpful"⟩]⟩
      (.list []) none rfl
  · exact claim_C7_operations_precedence.2.2.1 c7Playbook.sections "pat-001" "neutral"
      (by decide) (by decide)
  · exact claim_C7_operations_precedence.2.2.2.1 c7Playbook.sections "zzz" "helpful"
      (by decide)
  · have := claim_C7_operations_precedence.2.2.2.2.1 []
      "PATTERNS & APPROACHES" [] (mkEntry "pat-001" "a" 5 1) []
      [("MISTAKES TO AVOID", []), ("USER PREFERENCES", []), ("PROJECT CONTEXT", []),
       ("OTHERS", [])] "pat-001" 5 rfl rfl (by decide) (by decide)
    simpa [mkEntry] using this

/-- C1: refuted on the code.  A `KeyError` raised while summing the counters
of the *second* component (its member `oth-004` has no `helpful` key) is
caught by the `except` branch, which hands back the same playbook object —
with the *first* component already merged in place: the survivor `oth-001`'s
counters have been overwritten with the component sums (5,1 → 8,3) while its
duplicate `oth-002` has not been removed.  So on this load-reachable input
`run_deduplication` returns a partially applied, modified playbook, despite
its own log line claiming "returning playbook unmodified".  Failures *before*
any mutation (dependencies unavailable, provider raising) do return the
playbook unmodified, as the last two conjuncts show. -/
theorem claim_C1_dedup_not_atomic :
    run_deduplication c1Playbook (some (85/100)) ⟨true, .vecs c1Vecs, none⟩
      = ⟨some "1.0", none,
        [("PATTERNS & APPROACHES", []), ("MISTAKES TO AVOID", []), ("USER PREFERENCES", []),
         ("PROJECT CONTEXT", []),
         ("OTHERS",
           [mkEntry "oth-001" "A" 8 3, mkEntry "oth-002" "B" 3 2, mkEntry "oth-003" "C" 2 2,
            ⟨some "oth-004", some "D", none, none, none⟩])]⟩ ∧
    run_deduplication c1Playbook (some (85/100)) ⟨true, .vecs c1Vecs, none⟩ ≠ c1Playbook ∧
    run_deduplication c1Playbook (some (85/100)) ⟨false, .vecs c1Vecs, none⟩ = c1Playbook ∧
    run_deduplication c1Playbook (some (85/100)) ⟨true, .failure, none⟩ = c1Playbook := by
  refine ⟨by with_unfolding_all decide, by with_unfolding_all decide,
    by with_unfolding_all decide, by with_unfolding_all decide⟩

/-! ## Union-find lemmas -/

theorem iterP_succ_out (parent : List Nat) (k x : Nat) :
    iterP parent (k + 1) x = pGet parent (iterP parent k x) := by
  induction k generalizing x with
  | zero => rfl
  | succ m ih =>
    show iterP parent (m + 1) (pGet parent x) = _
    rw [ih]
    rfl

theorem iterP_add (parent : List Nat) (k m x : Nat) :
    iterP parent (k + m) x = iterP parent m (iterP parent k x) := by
  induction k generalizing x with
  | zero => rw [Nat.zero_add]; rfl
  | succ j ih =>
    have he : j + 1 + m = (j + m) + 1 := by omega
    rw [he]
    show iterP parent (j + m) (pGet parent x) = _
    rw [ih]
    rfl

theorem iterP_root (parent : List Nat) (r : Nat) (hr : isRootP parent r) (k : Nat) :
    iterP parent k r = r := by
  induction k with
  | zero => rfl
  | succ m ih =>
    show iterP parent m (pGet parent r) = r
    rw [hr]
    exact ih

theorem reaches_unique (parent : List Nat) (x r1 r2 : Nat)
    (h1 : reaches parent x r1) (h2 : reaches parent x r2) : r1 = r2 := by
  obtain ⟨k1, hk1, hr1⟩ := h1
  obtain ⟨k2, hk2, hr2⟩ := h2
  rcases Nat.le_total k1 k2 with h | h
  · have he : iterP parent k2 x = iterP parent (k2 - k1) (iterP parent k1 x) := by
      rw [← iterP_add]
      congr 1
      omega
    rw [hk1, iterP_root parent r1 hr1, hk2] at he
    exact he.symm
  · have he : iterP parent k1 x = iterP parent (k1 - k2) (iterP parent k2 x) := by
      rw [← iterP_add]
      congr 1
      omega
    rw [hk2, iterP_root parent r2 hr2, hk1] at he
    exact he

theorem reaches_step (parent : List Nat) (x r : Nat)
    (h : reaches parent (pGet parent x) r) : reaches parent x r := by
  obtain ⟨k, hk, hr⟩ := h
  exact ⟨k + 1, hk, hr⟩

theorem reaches_destep (parent : List Nat) (x r : Nat) (hx : ¬ isRootP parent x)
    (h : reaches parent x r) : reaches parent (pGet parent x) r := by
  obtain ⟨k, hk, hr⟩ := h
  cases k with
  | zero =>
    have hxr : x = r := hk
    rw [← hxr] at hr
    exact absurd hr hx
  | succ m => exact ⟨m, hk, hr⟩

theorem exists_root_within (parent : List Nat) (hUF : UFinv parent) (x : Nat)
    (hx : x < parent.length) :
    ∃ k, k < parent.length ∧ isRootP parent (iterP parent k x) := by
  by_contra hcon
  push_neg at hcon
  obtain ⟨hclo, d, hd⟩ := hUF
  have hin : ∀ k, iterP parent k x < parent.length := by
    intro k
    induction k with
    | zero => exact hx
    | succ m ih =>
      rw [iterP_succ_out]
      exact hclo _ ih
  have hdec : ∀ k, k < parent.length →
      d (iterP parent (k + 1) x) < d (iterP parent k x) := by
    intro k hk
    rw [iterP_succ_out]
    exact hd _ (hin k) (hcon k hk)
  have hmono : ∀ m k, k < m → m ≤ parent.length →
      d (iterP parent m x) < d (iterP parent k x) := by
    intro m
    induction m with
    | zero => omega
    | succ j ih =>
      intro k hkm hm
      have hj : j < parent.length := by omega
      rcases Nat.lt_or_ge k j with h | h
      · exact lt_trans (hdec j hj) (ih k h (by omega))
      · have hkj : k = j := by omega
        subst hkj
        exact hdec k hj
  have hinj : Function.Injective
      (fun k : Fin (parent.length + 1) =>
        (⟨iterP parent k.val x, hin k.val⟩ : Fin parent.length)) := by
    intro a b hab
    simp only [Fin.mk.injEq] at hab
    by_contra hne
    have hne' : a.val ≠ b.val := fun hc => hne (Fin.ext hc)
    rcases Nat.lt_or_ge a.val b.val with h | h
    · have := hmono b.val a.val h (by omega)
      rw [hab] at this
      omega
    · have hlt : b.val < a.val := by omega
      have := hmono a.val b.val hlt (by omega)
      rw [hab] at this
      omega
  have hcard := Fintype.card_le_of_injective _ hinj
  simp only [Fintype.card_fin] at hcard
  omega

theorem rootSpec_spec (parent : List Nat) (fuel : Nat) :
    ∀ (x k : Nat), k ≤ fuel → isRootP parent (iterP parent k x) →
    reaches parent x (rootSpec parent fuel x) := by
  induction fuel with
  | zero =>
    intro x k hk hr
    have hk0 : k = 0 := by omega
    subst hk0
    exact ⟨0, rfl, hr⟩
  | succ f ih =>
    intro x k hk hr
    by_cases hpx : pGet parent x = x
    · rw [rootSpec, if_pos hpx]
      exact ⟨0, rfl, hpx⟩
    · rw [rootSpec, if_neg hpx]
      cases k with
      | zero => exact absurd hr hpx
      | succ m =>
        have hr' : isRootP parent (iterP parent m (pGet parent x)) := hr
        exact reaches_step _ _ _ (ih (pGet parent x) m (by omega) hr')

theorem reaches_rootSpec (parent : List Nat) (hUF : UFinv parent) (x : Nat)
    (hx : x < parent.length) :
    reaches parent x (rootSpec parent parent.length x) := by
  obtain ⟨k, hk, hr⟩ := exists_root_within parent hUF x hx
  exact rootSpec_spec parent parent.length x k (le_of_lt hk) hr

theorem rootSpec_eq_of_reaches (parent : List Nat) (hUF : UFinv parent) (x r : Nat)
    (hx : x < parent.length) (h : reaches parent x r) :
    rootSpec parent parent.length x = r :=
  reaches_unique parent x _ r (reaches_rootSpec parent hUF x hx) h

theorem reaches_lt (parent : List Nat) (hclo : ∀ x, x < parent.length →
      pGet parent x < parent.length) (x r : Nat) (hx : x < parent.length)
    (h : reaches parent x r) : r < parent.length := by
  obtain ⟨k, hk, -⟩ := h
  subst hk
  induction k generalizing x with
  | zero => exact hx
  | succ m ih =>
    show iterP parent m (pGet parent x) < parent.length
    exact ih (pGet parent x) (hclo x hx)

theorem pGet_set_ne (parent : List Nat) (i v y : Nat) (h : y ≠ i) :
    pGet (parent.set i v) y = pGet parent y := by
  unfold pGet
  rw [List.getD_eq_getElem?_getD, List.getD_eq_getElem?_getD,
    List.getElem?_set_ne (fun hc => h hc.symm)]

theorem pGet_set_eq (parent : List Nat) (i v : Nat) (h : i < parent.length) :
    pGet (parent.set i v) i = v := by
  unfold pGet
  rw [List.getD_eq_getElem?_getD, List.getElem?_set_eq_of_lt v h]
  rfl

theorem no_two_cycle (parent : List Nat) (hUF : UFinv parent) (x : Nat)
    (hx : x < parent.length) (hnr : pGet parent x ≠ x) :
    pGet parent (pGet parent x) ≠ x := by
  intro hcyc
  obtain ⟨hclo, d, hd⟩ := hUF
  have hpxlen : pGet parent x < parent.length := hclo x hx
  by_cases hpr : pGet parent (pGet parent x) = pGet parent x
  · rw [hcyc] at hpr
    exact hnr hpr.symm
  · have h1 := hd x hx hnr
    have h2 := hd (pGet parent x) hpxlen (by rw [hcyc]; exact fun h => hnr h.symm)
    rw [hcyc] at h2
    omega

theorem isRootP_set_compress (parent : List Nat) (x r : Nat)
    (hnr : pGet parent x ≠ x) (hr : isRootP parent r) :
    isRootP (parent.set x (pGet parent (pGet parent x))) r := by
  unfold isRootP
  have hrne : r ≠ x := fun hc => hnr (by rw [← hc]; exact hr)
  rw [pGet_set_ne _ _ _ _ hrne]
  exact hr

theorem reaches_set_fwd (parent : List Nat) (x : Nat) (hUF : UFinv parent)
    (hx : x < parent.length) (hnr : pGet parent x ≠ x) :
    ∀ k y r, iterP parent k y = r → isRootP parent r →
      ∃ k', k' ≤ k ∧
        iterP (parent.set x (pGet parent (pGet parent x))) k' y = r ∧
        isRootP (parent.set x (pGet parent (pGet parent x))) r := by
  intro k
  induction k using Nat.strong_induction_on with
  | _ k ih =>
    intro y r hk hr
    match k, hk with
    | 0, hk =>
      exact ⟨0, Nat.le_refl 0, hk, isRootP_set_compress parent x r hnr hr⟩
    | (m + 1), hk =>
      by_cases hy : x = y
      · subst hy
        by_cases hpr : isRootP parent (pGet parent x)
        · have hkm : iterP parent m (pGet parent x) = r := hk
          rw [iterP_root parent _ hpr m] at hkm
          refine ⟨1, by omega, ?_, isRootP_set_compress parent x r hnr hr⟩
          show pGet (parent.set x (pGet parent (pGet parent x))) x = r
          rw [pGet_set_eq _ _ _ hx]
          rw [hpr]
          exact hkm
        · match m, hk with
          | 0, hk =>
            have hxr : pGet parent x = r := hk
            rw [hxr] at hpr
            exact absurd hr hpr
          | (m' + 1), hk =>
            have hk' : iterP parent m' (pGet parent (pGet parent x)) = r := hk
            obtain ⟨k', hk'le, hit, hrt⟩ := ih m' (by omega) _ r hk' hr
            refine ⟨k' + 1, by omega, ?_, hrt⟩
            show iterP (parent.set x (pGet parent (pGet parent x))) k'
              (pGet (parent.set x (pGet parent (pGet parent x))) x) = r
            rw [pGet_set_eq _ _ _ hx]
            exact hit
      · obtain ⟨k', hk'le, hit, hrt⟩ := ih m (by omega) (pGet parent y) r hk hr
        refine ⟨k' + 1, by omega, ?_, hrt⟩
        show iterP (parent.set x (pGet parent (pGet parent x))) k'
          (pGet (parent.set x (pGet parent (pGet parent x))) y) = r
        rw [pGet_set_ne _ _ _ _ (fun hc => hy hc.symm)]
        exact hit

theorem reaches_set_bwd (parent : List Nat) (x : Nat) (hUF : UFinv parent)
    (hx : x < parent.length) (hnr : pGet parent x ≠ x) :
    ∀ k y r, iterP (parent.set x (pGet parent (pGet parent x))) k y = r →
      isRootP (parent.set x (pGet parent (pGet parent x))) r →
      reaches parent y r := by
  have hgxne : pGet parent (pGet parent x) ≠ x := no_two_cycle parent hUF x hx hnr
  intro k
  induction k with
  | zero =>
    intro y r hk hr
    have hyr : y = r := hk
    subst hyr
    have hrx : y ≠ x := by
      intro hc
      subst hc
      unfold isRootP at hr
      rw [pGet_set_eq _ _ _ hx] at hr
      exact hgxne hr
    refine ⟨0, rfl, ?_⟩
    unfold isRootP
    rw [← pGet_set_ne parent x (pGet parent (pGet parent x)) y hrx]
    exact hr
  | succ m ih =>
    intro y r hk hr
    by_cases hy : x = y
    · subst hy
      have hk' : iterP (parent.set x (pGet parent (pGet parent x))) m
          (pGet parent (pGet parent x)) = r := by
        have : iterP (parent.set x (pGet parent (pGet parent x))) m
            (pGet (parent.set x (pGet parent (pGet parent x))) x) = r := hk
        rwa [pGet_set_eq _ _ _ hx] at this
      have hg := ih _ r hk' hr
      exact reaches_step parent x r (reaches_step parent (pGet parent x) r hg)
    · have hk' : iterP (parent.set x (pGet parent (pGet parent x))) m
          (pGet parent y) = r := by
        have : iterP (parent.set x (pGet parent (pGet parent x))) m
            (pGet (parent.set x (pGet parent (pGet parent x))) y) = r := hk
        rwa [pGet_set_ne _ _ _ _ (fun hc => hy hc.symm)] at this
      exact reaches_step parent y r (ih _ r hk' hr)

theorem UFinv_set_compress (parent : List Nat) (x : Nat) (hUF : UFinv parent)
    (hx : x < parent.length) (hnr : pGet parent x ≠ x) :
    UFinv (parent.set x (pGet parent (pGet parent x))) := by
  obtain ⟨hclo, d, hd⟩ := hUF
  have hpxlen : pGet parent x < parent.length := hclo x hx
  constructor
  · intro y hy
    rw [List.length_set] at hy ⊢
    by_cases hxy : x = y
    · subst hxy
      rw [pGet_set_eq _ _ _ hx]
      exact hclo _ hpxlen
    · rw [pGet_set_ne _ _ _ _ (fun hc => hxy hc.symm)]
      exact hclo y hy
  · refine ⟨d, ?_⟩
    intro y hy hne
    rw [List.length_set] at hy
    by_cases hxy : x = y
    · subst hxy
      rw [pGet_set_eq _ _ _ hx]
      by_cases hpr : pGet parent (pGet parent x) = pGet parent x
      · rw [hpr]
        exact hd x hx hnr
      · exact lt_trans (hd (pGet parent x) hpxlen hpr) (hd x hx hnr)
    · rw [pGet_set_ne _ _ _ _ (fun hc => hxy hc.symm)] at hne ⊢
      exact hd y hy hne

theorem reaches_set_iff (parent : List Nat) (x : Nat) (hUF : UFinv parent)
    (hx : x < parent.length) (hnr : pGet parent x ≠ x) (y r : Nat) :
    reaches parent y r ↔
      reaches (parent.set x (pGet parent (pGet parent x))) y r := by
  constructor
  · rintro ⟨k, hk, hr⟩
    obtain ⟨k', -, hit, hrt⟩ := reaches_set_fwd parent x hUF hx hnr k y r hk hr
    exact ⟨k', hit, hrt⟩
  · rintro ⟨k, hk, hr⟩
    exact reaches_set_bwd parent x hUF hx hnr k y r hk hr

theorem ufFind_spec :
    ∀ (fuel : Nat) (parent : List Nat) (x : Nat), UFinv parent → x < parent.length →
      (∃ k, k ≤ fuel ∧ isRootP parent (iterP parent k x)) →
      reaches parent x (ufFind parent x fuel).1 ∧
      (ufFind parent x fuel).2.length = parent.length ∧
      UFinv (ufFind parent x fuel).2 ∧
      (∀ y r, reaches parent y r ↔ reaches (ufFind parent x fuel).2 y r) := by
  intro fuel
  induction fuel with
  | zero =>
    intro parent x hUF hx hreach
    obtain ⟨k, hk, hr⟩ := hreach
    have hk0 : k = 0 := by omega
    subst hk0
    exact ⟨⟨0, rfl, hr⟩, rfl, hUF, fun y r => Iff.rfl⟩
  | succ f ih =>
    intro parent x hUF hx hreach
    by_cases hpx : pGet parent x = x
    · have hpx' : parent.getD x x = x := hpx
      have he : ufFind parent x (f + 1) = (x, parent) := by
        show (if parent.getD x x = x then ((x, parent) : Nat × List Nat)
          else ufFind (parent.set x (parent.getD (parent.getD x x) (parent.getD x x)))
            (parent.getD (parent.getD x x) (parent.getD x x)) f) = (x, parent)
        rw [if_pos hpx']
      rw [he]
      exact ⟨⟨0, rfl, hpx⟩, rfl, hUF, fun y r => Iff.rfl⟩
    · have hpx' : ¬ (parent.getD x x = x) := hpx
      have he : ufFind parent x (f + 1)
          = ufFind (parent.set x (pGet parent (pGet parent x)))
              (pGet parent (pGet parent x)) f := by
        show (if parent.getD x x = x then ((x, parent) : Nat × List Nat)
          else ufFind (parent.set x (parent.getD (parent.getD x x) (parent.getD x x)))
            (parent.getD (parent.getD x x) (parent.getD x x)) f) = _
        rw [if_neg hpx']
        rfl
      have hUF1 : UFinv (parent.set x (pGet parent (pGet parent x))) :=
        UFinv_set_compress parent x hUF hx hpx
      have hlen1 : (parent.set x (pGet parent (pGet parent x))).length = parent.length :=
        List.length_set parent x _
      have hgxlen : pGet parent (pGet parent x) < parent.length :=
        hUF.1 _ (hUF.1 x hx)
      have hequiv : ∀ y r, reaches parent y r ↔
          reaches (parent.set x (pGet parent (pGet parent x))) y r :=
        fun y r => reaches_set_iff parent x hUF hx hpx y r
      have hreach1 : ∃ k, k ≤ f ∧
          isRootP (parent.set x (pGet parent (pGet parent x)))
            (iterP (parent.set x (pGet parent (pGet parent x))) k
              (pGet parent (pGet parent x))) := by
        obtain ⟨k, hkle, hr⟩ := hreach
        match k, hkle, hr with
        | 0, hkle, hr => exact absurd hr hpx
        | (k + 1), hkle, hr =>
          by_cases hpr : isRootP parent (pGet parent x)
          · have hgx_eq : pGet parent (pGet parent x) = pGet parent x := hpr
            have hgx_root : isRootP parent (pGet parent (pGet parent x)) := by
              rw [hgx_eq]
              exact hpr
            obtain ⟨k', hk'le, hit, hrt⟩ :=
              reaches_set_fwd parent x hUF hx hpx 0 (pGet parent (pGet parent x))
                (pGet parent (pGet parent x)) rfl hgx_root
            refine ⟨k', by omega, ?_⟩
            rw [hit]
            exact hrt
          · match k, hkle, hr with
            | 0, hkle, hr => exact absurd hr hpr
            | (k' + 1), hkle, hr =>
              have hrg : isRootP parent
                  (iterP parent k' (pGet parent (pGet parent x))) := hr
              obtain ⟨k2, hk2le, hit, hrt⟩ :=
                reaches_set_fwd parent x hUF hx hpx k' (pGet parent (pGet parent x))
                  (iterP parent k' (pGet parent (pGet parent x))) rfl hrg
              refine ⟨k2, by omega, ?_⟩
              rw [hit]
              exact hrt
      obtain ⟨hre, hlen2, hUF2, hequiv2⟩ :=
        ih (parent.set x (pGet parent (pGet parent x))) (pGet parent (pGet parent x))
          hUF1 (by rw [hlen1]; exact hgxlen) hreach1
      rw [he]
      refine ⟨?_, by rw [hlen2, hlen1], hUF2, ?_⟩
      · have hgr : reaches parent (pGet parent (pGet parent x))
            (ufFind (parent.set x (pGet parent (pGet parent x)))
              (pGet parent (pGet parent x)) f).1 :=
          (hequiv _ _).mpr hre
        exact reaches_step parent x _ (reaches_step parent (pGet parent x) _ hgr)
      · intro y r
        exact (hequiv y r).trans (hequiv2 y r)

theorem reaches_set_union (parent : List Nat) (ra rb : Nat)
    (hra : ra < parent.length)
    (hraroot : isRootP parent ra) (hrbroot : isRootP parent rb) (hne : ra ≠ rb) :
    ∀ y s, reaches (parent.set ra rb) y s ↔
      ((reaches parent y s ∧ s ≠ ra) ∨ (reaches parent y ra ∧ s = rb)) := by
  have hrbne : rb ≠ ra := fun hc => hne hc.symm
  have hrbroot' : isRootP (parent.set ra rb) rb := by
    unfold isRootP
    rw [pGet_set_ne _ _ _ _ hrbne]
    exact hrbroot
  intro y s
  constructor
  · rintro ⟨k, hk, hr⟩
    induction k generalizing y with
    | zero =>
      have hys : y = s := hk
      subst hys
      have hsra : y ≠ ra := by
        intro hc
        subst hc
        unfold isRootP at hr
        rw [pGet_set_eq _ _ _ hra] at hr
        exact hne hr.symm
      refine Or.inl ⟨⟨0, rfl, ?_⟩, hsra⟩
      unfold isRootP
      rw [← pGet_set_ne parent ra rb y hsra]
      exact hr
    | succ m ih =>
      by_cases hyra : y = ra
      · subst hyra
        have hk' : iterP (parent.set y rb) m rb = s := by
          have h0 : iterP (parent.set y rb) m (pGet (parent.set y rb) y) = s := hk
          rwa [pGet_set_eq _ _ _ hra] at h0
        rw [iterP_root _ rb hrbroot' m] at hk'
        exact Or.inr ⟨⟨0, rfl, hraroot⟩, hk'.symm⟩
      · have hk' : iterP (parent.set ra rb) m (pGet parent y) = s := by
          have h0 : iterP (parent.set ra rb) m (pGet (parent.set ra rb) y) = s := hk
          rwa [pGet_set_ne _ _ _ _ hyra] at h0
        rcases ih (pGet parent y) hk' with ⟨hre, hsne⟩ | ⟨hre, hseq⟩
        · exact Or.inl ⟨reaches_step _ _ _ hre, hsne⟩
        · exact Or.inr ⟨reaches_step _ _ _ hre, hseq⟩
  · rintro (⟨⟨k, hk, hr⟩, hsne⟩ | ⟨⟨k, hk, hr⟩, hseq⟩)
    · induction k generalizing y with
      | zero =>
        have hys : y = s := hk
        subst hys
        refine ⟨0, rfl, ?_⟩
        unfold isRootP
        rw [pGet_set_ne _ _ _ _ hsne]
        exact hr
      | succ m ih =>
        by_cases hyra : y = ra
        · subst hyra
          have : iterP parent m (pGet parent y) = s := hk
          rw [hraroot] at this
          rw [iterP_root parent y hraroot m] at this
          exact absurd this.symm (fun hc => hsne (hc ▸ rfl))
        · have hk' : iterP parent m (pGet parent y) = s := hk
          refine reaches_step _ _ _ ?_
          rw [pGet_set_ne parent ra rb y hyra]
          exact ih (pGet parent y) hk'
    · rw [hseq]
      clear hseq
      induction k generalizing y with
      | zero =>
        have hys : y = ra := hk
        subst hys
        refine ⟨1, ?_, hrbroot'⟩
        show iterP (parent.set y rb) 0 (pGet (parent.set y rb) y) = rb
        rw [pGet_set_eq _ _ _ hra]
        rfl
      | succ m ih =>
        by_cases hyra : y = ra
        · subst hyra
          refine ⟨1, ?_, hrbroot'⟩
          show iterP (parent.set y rb) 0 (pGet (parent.set y rb) y) = rb
          rw [pGet_set_eq _ _ _ hra]
          rfl
        · have hk' : iterP parent m (pGet parent y) = ra := hk
          refine reaches_step _ _ _ ?_
          rw [pGet_set_ne parent ra rb y hyra]
          exact ih (pGet parent y) hk'

theorem UFinv_set_union (parent : List Nat) (ra rb : Nat) (hUF : UFinv parent)
    (hra : ra < parent.length) (hrb : rb < parent.length)
    (hraroot : isRootP parent ra) (hrbroot : isRootP parent rb) (hne : ra ≠ rb) :
    UFinv (parent.set ra rb) := by
  classical
  obtain ⟨hclo, d, hd⟩ := hUF
  constructor
  · intro y hy
    rw [List.length_set] at hy ⊢
    by_cases hyra : y = ra
    · subst hyra
      rw [pGet_set_eq _ _ _ hra]
      exact hrb
    · rw [pGet_set_ne _ _ _ _ hyra]
      exact hclo y hy
  · refine ⟨fun y => if reaches parent y ra then d y + (d rb + 1) else d y, ?_⟩
    intro y hy hne'
    rw [List.length_set] at hy
    by_cases hyra : y = ra
    · subst hyra
      rw [pGet_set_eq _ _ _ hra] at hne' ⊢
      have h1 : ¬ reaches parent rb y := by
        rintro ⟨k, hk, -⟩
        rw [iterP_root parent rb hrbroot k] at hk
        exact hne hk.symm
      have h2 : reaches parent y y := ⟨0, rfl, hraroot⟩
      simp only [if_neg h1, if_pos h2]
      omega
    · rw [pGet_set_ne _ _ _ _ hyra] at hne' ⊢
      have hynr : ¬ isRootP parent y := hne'
      by_cases hyr : reaches parent y ra
      · have hpyr : reaches parent (pGet parent y) ra :=
          reaches_destep parent y ra hynr hyr
        simp only [if_pos hyr, if_pos hpyr]
        exact Nat.add_lt_add_right (hd y hy hne') _
      · have hpyn : ¬ reaches parent (pGet parent y) ra :=
          fun hc => hyr (reaches_step _ _ _ hc)
        simp only [if_neg hpyn, if_neg hyr]
        exact hd y hy hne'

theorem ufUnion_spec (parent : List Nat) (a b : Nat) (hUF : UFinv parent)
    (ha : a < parent.length) (hb : b < parent.length) :
    (ufUnion parent a b).length = parent.length ∧
    UFinv (ufUnion parent a b) ∧
    ∃ ra rb, reaches parent a ra ∧ reaches parent b rb ∧
      (∀ y s, reaches (ufUnion parent a b) y s ↔
        (if ra = rb then reaches parent y s
         else (reaches parent y s ∧ s ≠ ra) ∨ (reaches parent y ra ∧ s = rb))) := by
  obtain ⟨k1, hk1, hr1⟩ := exists_root_within parent hUF a ha
  obtain ⟨hfa_re, hfa_len, hfa_UF, hfa_eq⟩ :=
    ufFind_spec parent.length parent a hUF ha ⟨k1, by omega, hr1⟩
  have hb1 : b < (ufFind parent a parent.length).2.length := by
    rw [hfa_len]
    exact hb
  obtain ⟨k2, hk2, hr2⟩ := exists_root_within _ hfa_UF b hb1
  obtain ⟨hfb_re, hfb_len, hfb_UF, hfb_eq⟩ :=
    ufFind_spec (ufFind parent a parent.length).2.length _ b hfa_UF hb1
      ⟨k2, by omega, hr2⟩
  have hequiv : ∀ y r, reaches parent y r ↔
      reaches (ufFind (ufFind parent a parent.length).2 b
        (ufFind parent a parent.length).2.length).2 y r :=
    fun y r => (hfa_eq y r).trans (hfb_eq y r)
  have hra_re : reaches parent a (ufFind parent a parent.length).1 := hfa_re
  have hrb_re : reaches parent b
      (ufFind (ufFind parent a parent.length).2 b
        (ufFind parent a parent.length).2.length).1 :=
    (hfa_eq b _).mpr hfb_re
  have hdef : ufUnion parent a b =
      (if (ufFind parent a parent.length).1 =
          (ufFind (ufFind parent a parent.length).2 b
            (ufFind parent a parent.length).2.length).1
       then (ufFind (ufFind parent a parent.length).2 b
            (ufFind parent a parent.length).2.length).2
       else ((ufFind (ufFind parent a parent.length).2 b
            (ufFind parent a parent.length).2.length).2).set
          (ufFind parent a parent.length).1
          (ufFind (ufFind parent a parent.length).2 b
            (ufFind parent a parent.length).2.length).1) := rfl
  by_cases hroots : (ufFind parent a parent.length).1 =
      (ufFind (ufFind parent a parent.length).2 b
        (ufFind parent a parent.length).2.length).1
  · rw [hdef, if_pos hroots]
    refine ⟨by rw [hfb_len, hfa_len], hfb_UF, _, _, hra_re, hrb_re, ?_⟩
    intro y s
    rw [if_pos hroots]
    exact (hequiv y s).symm
  · rw [hdef, if_neg hroots]
    have hra_root : isRootP parent (ufFind parent a parent.length).1 := by
      obtain ⟨-, -, h⟩ := hra_re
      exact h
    have hrb_root : isRootP parent
        (ufFind (ufFind parent a parent.length).2 b
          (ufFind parent a parent.length).2.length).1 := by
      obtain ⟨-, -, h⟩ := hrb_re
      exact h
    have hra_lt : (ufFind parent a parent.length).1 < parent.length :=
      reaches_lt parent hUF.1 a _ ha hra_re
    have hrb_lt : (ufFind (ufFind parent a parent.length).2 b
        (ufFind parent a parent.length).2.length).1 < parent.length :=
      reaches_lt parent hUF.1 b _ hb hrb_re
    have hroot_transfer : ∀ r, isRootP parent r →
        isRootP (ufFind (ufFind parent a parent.length).2 b
          (ufFind parent a parent.length).2.length).2 r := by
      intro r hr
      have hrr : reaches parent r r := ⟨0, rfl, hr⟩
      obtain ⟨-, -, h⟩ := (hequiv r r).mp hrr
      exact h
    have hlen2 : (ufFind (ufFind parent a parent.length).2 b
        (ufFind parent a parent.length).2.length).2.length = parent.length := by
      rw [hfb_len, hfa_len]
    refine ⟨by rw [List.length_set, hlen2], ?_, _, _, hra_re, hrb_re, ?_⟩
    · refine UFinv_set_union _ _ _ hfb_UF ?_ ?_
        (hroot_transfer _ hra_root) (hroot_transfer _ hrb_root) hroots
      · rw [hlen2]
        exact hra_lt
      · rw [hlen2]
        exact hrb_lt
    · intro y s
      rw [if_neg hroots]
      have hch := reaches_set_union
        (ufFind (ufFind parent a parent.length).2 b
          (ufFind parent a parent.length).2.length).2
        (ufFind parent a parent.length).1
        (ufFind (ufFind parent a parent.length).2 b
          (ufFind parent a parent.length).2.length).1
        (by rw [hlen2]; exact hra_lt)
        (hroot_transfer _ hra_root) (hroot_transfer _ hrb_root) hroots y s
      rw [hch]
      constructor
      · rintro (⟨hre, hsne⟩ | ⟨hre, hseq⟩)
        · exact Or.inl ⟨(hequiv y s).mpr hre, hsne⟩
        · exact Or.inr ⟨(hequiv y _).mpr hre, hseq⟩
      · rintro (⟨hre, hsne⟩ | ⟨hre, hseq⟩)
        · exact Or.inl ⟨(hequiv y s).mp hre, hsne⟩
        · exact Or.inr ⟨(hequiv y _).mp hre, hseq⟩

theorem eqvGen_iff_congr {α : Type} (R S : α → α → Prop)
    (h : ∀ u v, R u v ↔ S u v) (x y : α) :
    Relation.EqvGen R x y ↔ Relation.EqvGen S x y :=
  ⟨Relation.EqvGen.mono (fun u v hu => (h u v).mp hu),
   Relation.EqvGen.mono (fun u v hu => (h u v).mpr hu)⟩

theorem eqvGen_false_iff {α : Type} (x y : α) :
    Relation.EqvGen (fun _ _ => False) x y ↔ x = y := by
  constructor
  · intro h
    induction h with
    | rel u v huv => exact absurd huv (fun hc => hc)
    | refl u => rfl
    | symm u v _ ih => exact ih.symm
    | trans u v w _ _ ih1 ih2 => exact ih1.trans ih2
  · rintro rfl
    exact Relation.EqvGen.refl x

theorem eqvGen_join (E : Nat → Nat → Prop) (a b : Nat) (x y : Nat) :
    Relation.EqvGen (fun u v => E u v ∨ (u = a ∧ v = b)) x y ↔
      (Relation.EqvGen E x y ∨
       (Relation.EqvGen E x a ∧ Relation.EqvGen E b y) ∨
       (Relation.EqvGen E x b ∧ Relation.EqvGen E a y)) := by
  constructor
  · intro h
    induction h with
    | rel u v huv =>
      rcases huv with hE | ⟨hua, hvb⟩
      · exact Or.inl (Relation.EqvGen.rel _ _ hE)
      · subst hua
        subst hvb
        exact Or.inr (Or.inl ⟨Relation.EqvGen.refl _, Relation.EqvGen.refl _⟩)
    | refl u => exact Or.inl (Relation.EqvGen.refl _)
    | symm u v _ ih =>
      rcases ih with h1 | ⟨h1, h2⟩ | ⟨h1, h2⟩
      · exact Or.inl (Relation.EqvGen.symm _ _ h1)
      · exact Or.inr (Or.inr ⟨Relation.EqvGen.symm _ _ h2, Relation.EqvGen.symm _ _ h1⟩)
      · exact Or.inr (Or.inl ⟨Relation.EqvGen.symm _ _ h2, Relation.EqvGen.symm _ _ h1⟩)
    | trans u v w _ _ ih1 ih2 =>
      rcases ih1 with hL | ⟨ha1, hb1⟩ | ⟨ha1, hb1⟩
      · rcases ih2 with hL2 | ⟨ha2, hb2⟩ | ⟨ha2, hb2⟩
        · exact Or.inl (Relation.EqvGen.trans _ _ _ hL hL2)
        · exact Or.inr (Or.inl ⟨Relation.EqvGen.trans _ _ _ hL ha2, hb2⟩)
        · exact Or.inr (Or.inr ⟨Relation.EqvGen.trans _ _ _ hL ha2, hb2⟩)
      · rcases ih2 with hL2 | ⟨ha2, hb2⟩ | ⟨ha2, hb2⟩
        · exact Or.inr (Or.inl ⟨ha1, Relation.EqvGen.trans _ _ _ hb1 hL2⟩)
        · exact Or.inl (Relation.EqvGen.trans _ _ _
            (Relation.EqvGen.trans _ _ _ ha1
              (Relation.EqvGen.symm _ _ (Relation.EqvGen.trans _ _ _ hb1 ha2))) hb2)
        · exact Or.inl (Relation.EqvGen.trans _ _ _ ha1 hb2)
      · rcases ih2 with hL2 | ⟨ha2, hb2⟩ | ⟨ha2, hb2⟩
        · exact Or.inr (Or.inr ⟨ha1, Relation.EqvGen.trans _ _ _ hb1 hL2⟩)
        · exact Or.inl (Relation.EqvGen.trans _ _ _ ha1 hb2)
        · refine Or.inr (Or.inl ⟨?_, ?_⟩)
          · exact Relation.EqvGen.trans _ _ _ ha1
              (Relation.EqvGen.symm _ _ (Relation.EqvGen.trans _ _ _ hb1 ha2))
          · exact Relation.EqvGen.trans _ _ _
              (Relation.EqvGen.symm _ _ (Relation.EqvGen.trans _ _ _ hb1 ha2)) hb2
  · rintro (h | ⟨h1, h2⟩ | ⟨h1, h2⟩)
    · exact Relation.EqvGen.mono (fun u v hE => Or.inl hE) h
    · refine Relation.EqvGen.trans _ _ _
        (Relation.EqvGen.trans _ _ _
          (Relation.EqvGen.mono (fun u v hE => Or.inl hE) h1)
          (Relation.EqvGen.rel _ _ (Or.inr ⟨rfl, rfl⟩))) ?_
      exact Relation.EqvGen.mono (fun u v hE => Or.inl hE) h2
    · refine Relation.EqvGen.trans _ _ _
        (Relation.EqvGen.trans _ _ _
          (Relation.EqvGen.mono (fun u v hE => Or.inl hE) h1)
          (Relation.EqvGen.symm _ _ (Relation.EqvGen.rel _ _ (Or.inr ⟨rfl, rfl⟩)))) ?_
      exact Relation.EqvGen.mono (fun u v hE => Or.inl hE) h2

theorem pGet_range (n x : Nat) : pGet (List.range n) x = x := by
  unfold pGet
  rcases Nat.lt_or_ge x n with h | h
  · rw [List.getD_eq_getElem?_getD, List.getElem?_range h]
    rfl
  · rw [List.getD_eq_getElem?_getD, List.getElem?_eq_none (by simpa using h)]
    rfl

theorem UFinv_range (n : Nat) : UFinv (List.range n) := by
  refine ⟨fun x hx => ?_, fun _ => 0, fun x hx hne => ?_⟩
  · rw [pGet_range]
    exact hx
  · exact absurd (pGet_range n x) hne

theorem reaches_range (n x r : Nat) : reaches (List.range n) x r ↔ x = r := by
  constructor
  · rintro ⟨k, hk, -⟩
    have hiter : ∀ m y, iterP (List.range n) m y = y := by
      intro m
      induction m with
      | zero => intro y; rfl
      | succ j ih =>
        intro y
        show iterP (List.range n) j (pGet (List.range n) y) = y
        rw [pGet_range]
        exact ih y
    rw [hiter k x] at hk
    exact hk
  · rintro rfl
    exact ⟨0, rfl, pGet_range n x⟩

theorem mem_pairsLex (n : Nat) (p : Nat × Nat) :
    p ∈ pairsLex n ↔ p.1 < p.2 ∧ p.2 < n := by
  unfold pairsLex
  rw [List.mem_flatten]
  constructor
  · rintro ⟨l, hl, hmem⟩
    rw [List.mem_map] at hl
    obtain ⟨i, hi, rfl⟩ := hl
    rw [List.mem_map] at hmem
    obtain ⟨j, hj, rfl⟩ := hmem
    rw [List.mem_filter, List.mem_range] at hj
    rw [List.mem_range] at hi
    exact ⟨by simpa using hj.2, hj.1⟩
  · rintro ⟨hij, hjn⟩
    refine ⟨((List.range n).filter (fun j => p.1 < j)).map (fun j => (p.1, j)), ?_, ?_⟩
    · rw [List.mem_map]
      exact ⟨p.1, by rw [List.mem_range]; omega, rfl⟩
    · rw [List.mem_map]
      refine ⟨p.2, ?_, rfl⟩
      rw [List.mem_filter, List.mem_range]
      exact ⟨hjn, by simpa using hij⟩

theorem buildFold_spec (n : Nat) (sim : Nat → Nat → Rat) (θ : Rat) :
    ∀ (L : List (Nat × Nat)) (parent : List Nat) (E : Nat → Nat → Prop),
      parent.length = n → UFinv parent →
      (∀ p ∈ L, p.1 < n ∧ p.2 < n) →
      (∀ x y, x < n → y < n → (sameRoot parent x y ↔ Relation.EqvGen E x y)) →
      (L.foldl (fun par ij => if sim ij.1 ij.2 ≥ θ then ufUnion par ij.1 ij.2 else par)
          parent).length = n ∧
      UFinv (L.foldl (fun par ij => if sim ij.1 ij.2 ≥ θ then ufUnion par ij.1 ij.2 else par)
          parent) ∧
      (∀ x y, x < n → y < n →
        (sameRoot (L.foldl (fun par ij => if sim ij.1 ij.2 ≥ θ then ufUnion par ij.1 ij.2
            else par) parent) x y ↔
         Relation.EqvGen (fun u v => E u v ∨ ((u, v) ∈ L ∧ sim u v ≥ θ)) x y)) := by
  intro L
  induction L with
  | nil =>
    intro parent E hlen hUF hL hinv
    refine ⟨hlen, hUF, fun x y hx hy => ?_⟩
    rw [List.foldl_nil, hinv x y hx hy]
    refine eqvGen_iff_congr _ _ (fun u v => ?_) x y
    simp
  | cons hd t ih =>
    intro parent E hlen hUF hL hinv
    have hhd : hd.1 < n ∧ hd.2 < n := hL hd (List.mem_cons_self hd t)
    have hfold : (hd :: t).foldl
        (fun par ij => if sim ij.1 ij.2 ≥ θ then ufUnion par ij.1 ij.2 else par) parent =
      t.foldl (fun par ij => if sim ij.1 ij.2 ≥ θ then ufUnion par ij.1 ij.2 else par)
        (if sim hd.1 hd.2 ≥ θ then ufUnion parent hd.1 hd.2 else parent) := rfl
    by_cases hsim : sim hd.1 hd.2 ≥ θ
    · rw [hfold, if_pos hsim]
      obtain ⟨hlen1, hUF1, ra, rb, hra, hrb, hchar⟩ :=
        ufUnion_spec parent hd.1 hd.2 hUF (by rw [hlen]; exact hhd.1)
          (by rw [hlen]; exact hhd.2)
      have hinv' : ∀ x y, x < n → y < n →
          (sameRoot (ufUnion parent hd.1 hd.2) x y ↔
           Relation.EqvGen (fun u v => E u v ∨ (u = hd.1 ∧ v = hd.2)) x y) := by
        intro x y hx hy
        by_cases hrr : ra = rb
        · have hsame : sameRoot (ufUnion parent hd.1 hd.2) x y ↔ sameRoot parent x y := by
            unfold sameRoot
            constructor
            · rintro ⟨s, hxs, hys⟩
              rw [hchar x s, if_pos hrr] at hxs
              rw [hchar y s, if_pos hrr] at hys
              exact ⟨s, hxs, hys⟩
            · rintro ⟨s, hxs, hys⟩
              refine ⟨s, ?_, ?_⟩
              · rw [hchar x s, if_pos hrr]
                exact hxs
              · rw [hchar y s, if_pos hrr]
                exact hys
          rw [hsame, hinv x y hx hy]
          have hab : Relation.EqvGen E hd.1 hd.2 :=
            (hinv hd.1 hd.2 hhd.1 hhd.2).mp ⟨ra, hra, by rw [hrr]; exact hrb⟩
          constructor
          · exact Relation.EqvGen.mono (fun u v hE => Or.inl hE)
          · intro hcl
            rcases (eqvGen_join E hd.1 hd.2 x y).mp hcl with h1 | ⟨h1, h2⟩ | ⟨h1, h2⟩
            · exact h1
            · exact Relation.EqvGen.trans _ _ _ (Relation.EqvGen.trans _ _ _ h1 hab) h2
            · exact Relation.EqvGen.trans _ _ _
                (Relation.EqvGen.trans _ _ _ h1 (Relation.EqvGen.symm _ _ hab)) h2
        · have hrbra : rb ≠ ra := fun hc => hrr hc.symm
          have hsame : sameRoot (ufUnion parent hd.1 hd.2) x y ↔
              (sameRoot parent x y ∨
               (sameRoot parent x hd.1 ∧ sameRoot parent hd.2 y) ∨
               (sameRoot parent x hd.2 ∧ sameRoot parent hd.1 y)) := by
            unfold sameRoot
            constructor
            · rintro ⟨s, hxs, hys⟩
              rw [hchar x s, if_neg hrr] at hxs
              rw [hchar y s, if_neg hrr] at hys
              rcases hxs with ⟨hxs, hsra⟩ | ⟨hxra, hsrb⟩
              · rcases hys with ⟨hys, -⟩ | ⟨hyra, hsrb⟩
                · exact Or.inl ⟨s, hxs, hys⟩
                · rw [hsrb] at hxs
                  exact Or.inr (Or.inr ⟨⟨rb, hxs, hrb⟩, ⟨ra, hra, hyra⟩⟩)
              · rcases hys with ⟨hys, -⟩ | ⟨hyra, -⟩
                · rw [hsrb] at hys
                  exact Or.inr (Or.inl ⟨⟨ra, hxra, hra⟩, ⟨rb, hrb, hys⟩⟩)
                · exact Or.inl ⟨ra, hxra, hyra⟩
            · rintro (⟨s, hxs, hys⟩ | ⟨⟨s1, hxs1, h1s1⟩, ⟨s2, h2s2, hys2⟩⟩ |
                ⟨⟨s1, hxs1, h2s1⟩, ⟨s2, h1s2, hys2⟩⟩)
              · by_cases hsra : s = ra
                · subst hsra
                  refine ⟨rb, ?_, ?_⟩
                  · rw [hchar x rb, if_neg hrr]
                    exact Or.inr ⟨hxs, rfl⟩
                  · rw [hchar y rb, if_neg hrr]
                    exact Or.inr ⟨hys, rfl⟩
                · refine ⟨s, ?_, ?_⟩
                  · rw [hchar x s, if_neg hrr]
                    exact Or.inl ⟨hxs, hsra⟩
                  · rw [hchar y s, if_neg hrr]
                    exact Or.inl ⟨hys, hsra⟩
              · have hs1 : s1 = ra := reaches_unique parent hd.1 s1 ra h1s1 hra
                have hs2 : s2 = rb := reaches_unique parent hd.2 s2 rb h2s2 hrb
                rw [hs1] at hxs1
                rw [hs2] at hys2
                refine ⟨rb, ?_, ?_⟩
                · rw [hchar x rb, if_neg hrr]
                  exact Or.inr ⟨hxs1, rfl⟩
                · rw [hchar y rb, if_neg hrr]
                  exact Or.inl ⟨hys2, hrbra⟩
              · have hs1 : s1 = rb := reaches_unique parent hd.2 s1 rb h2s1 hrb
                have hs2 : s2 = ra := reaches_unique parent hd.1 s2 ra h1s2 hra
                rw [hs1] at hxs1
                rw [hs2] at hys2
                refine ⟨rb, ?_, ?_⟩
                · rw [hchar x rb, if_neg hrr]
                  exact Or.inl ⟨hxs1, hrbra⟩
                · rw [hchar y rb, if_neg hrr]
                  exact Or.inr ⟨hys2, rfl⟩
          rw [hsame, hinv x y hx hy, hinv x hd.1 hx hhd.1, hinv hd.2 y hhd.2 hy,
            hinv x hd.2 hx hhd.2, hinv hd.1 y hhd.1 hy]
          exact (eqvGen_join E hd.1 hd.2 x y).symm
      obtain ⟨hlen2, hUF2, hres⟩ :=
        ih (ufUnion parent hd.1 hd.2) (fun u v => E u v ∨ (u = hd.1 ∧ v = hd.2))
          (by rw [hlen1, hlen]) hUF1 (fun p hp => hL p (List.mem_cons_of_mem hd hp)) hinv'
      refine ⟨hlen2, hUF2, fun x y hx hy => ?_⟩
      rw [hres x y hx hy]
      refine eqvGen_iff_congr _ _ (fun u v => ?_) x y
      constructor
      · rintro ((hE | ⟨h1, h2⟩) | ⟨hmem, hs⟩)
        · exact Or.inl hE
        · subst h1
          subst h2
          exact Or.inr ⟨by simp, hsim⟩
        · exact Or.inr ⟨List.mem_cons_of_mem hd hmem, hs⟩
      · rintro (hE | ⟨hmem, hs⟩)
        · exact Or.inl (Or.inl hE)
        · rcases List.mem_cons.mp hmem with heq | hmem'
          · refine Or.inl (Or.inr ?_)
            rw [Prod.ext_iff] at heq
            exact heq
          · exact Or.inr ⟨hmem', hs⟩
    · rw [hfold, if_neg hsim]
      obtain ⟨hlen2, hUF2, hres⟩ :=
        ih parent E hlen hUF (fun p hp => hL p (List.mem_cons_of_mem hd hp)) hinv
      refine ⟨hlen2, hUF2, fun x y hx hy => ?_⟩
      rw [hres x y hx hy]
      refine eqvGen_iff_congr _ _ (fun u v => ?_) x y
      constructor
      · rintro (hE | ⟨hmem, hs⟩)
        · exact Or.inl hE
        · exact Or.inr ⟨List.mem_cons_of_mem hd hmem, hs⟩
      · rintro (hE | ⟨hmem, hs⟩)
        · exact Or.inl hE
        · rcases List.mem_cons.mp hmem with heq | hmem'
          · subst heq
            exact absurd hs hsim
          · exact Or.inr ⟨hmem', hs⟩

theorem buildParent_spec (n : Nat) (sim : Nat → Nat → Rat) (θ : Rat) :
    (buildParent n sim θ).length = n ∧
    UFinv (buildParent n sim θ) ∧
    (∀ x y, x < n → y < n →
      (sameRoot (buildParent n sim θ) x y ↔
       Relation.EqvGen (pairAdj n sim θ) x y)) := by
  unfold buildParent
  obtain ⟨hlen, hUF, hres⟩ :=
    buildFold_spec n sim θ (pairsLex n) (List.range n) (fun _ _ => False)
      (List.length_range n) (UFinv_range n)
      (fun p hp => by
        have h := (mem_pairsLex n p).mp hp
        exact ⟨Nat.lt_trans h.1 h.2, h.2⟩)
      (fun x y hx hy => by
        constructor
        · rintro ⟨r, hxr, hyr⟩
          rw [reaches_range] at hxr hyr
          rw [(eqvGen_false_iff x y : _ ↔ x = y)]
          rw [hxr, hyr]
        · intro h
          rw [eqvGen_false_iff x y] at h
          subst h
          exact ⟨x, (reaches_range n x x).mpr rfl, (reaches_range n x x).mpr rfl⟩)
  refine ⟨hlen, hUF, fun x y hx hy => ?_⟩
  rw [hres x y hx hy]
  refine eqvGen_iff_congr _ _ (fun u v => ?_) x y
  unfold pairAdj
  rw [mem_pairsLex]
  constructor
  · rintro (hf | ⟨⟨h1, h2⟩, hs⟩)
    · exact absurd hf (fun hc => hc)
    · exact ⟨h1, h2, hs⟩
  · rintro ⟨h1, h2, hs⟩
    exact Or.inr ⟨⟨h1, h2⟩, hs⟩

theorem map_eq_of_mem_eq {α β : Type} (l : List α) (f g : α → β)
    (h : ∀ a ∈ l, f a = g a) : l.map f = l.map g := by
  induction l with
  | nil => rfl
  | cons hd t ih =>
    show f hd :: t.map f = g hd :: t.map g
    rw [h hd (List.mem_cons_self hd t), ih (fun a ha => h a (List.mem_cons_of_mem hd ha))]

theorem componentsFold_spec (parent0 : List Nat) :
    ∀ (L : List Nat) (comps : List (Nat × List Nat)) (par : List Nat),
      par.length = parent0.length → UFinv par →
      (∀ y r, reaches parent0 y r ↔ reaches par y r) →
      (∀ i ∈ L, i < parent0.length) →
      List.Pairwise (· < ·) L →
      (∀ i ∈ L, ∀ c ∈ comps, ∀ m ∈ c.2, m < i) →
      (∀ c ∈ comps, ∀ m ∈ c.2, reaches parent0 m c.1 ∧ m < parent0.length) →
      ((comps.map (fun c => c.1)).Nodup) →
      (∀ c ∈ comps, List.Pairwise (· < ·) c.2) →
      (∀ c ∈ comps, c.2 ≠ []) →
      (∀ c ∈ (L.foldl compStep (comps, par)).1, ∀ m ∈ c.2,
        reaches parent0 m c.1 ∧ m < parent0.length) ∧
      (((L.foldl compStep (comps, par)).1.map (fun c => c.1)).Nodup) ∧
      (∀ c ∈ (L.foldl compStep (comps, par)).1, List.Pairwise (· < ·) c.2) ∧
      (∀ c ∈ (L.foldl compStep (comps, par)).1, c.2 ≠ []) ∧
      (∀ c ∈ comps, ∃ c' ∈ (L.foldl compStep (comps, par)).1,
        c'.1 = c.1 ∧ ∀ m ∈ c.2, m ∈ c'.2) ∧
      (∀ i ∈ L, ∃ c ∈ (L.foldl compStep (comps, par)).1, i ∈ c.2) := by
  intro L
  induction L with
  | nil =>
    intro comps par hplen hpUF hpeq hiL hpwL hfresh hre hnod hpw hne
    rw [List.foldl_nil]
    refine ⟨hre, hnod, hpw, hne, fun c hc => ⟨c, hc, rfl, fun m hm => hm⟩,
      fun i hi => absurd hi (List.not_mem_nil i)⟩
  | cons i rest ih =>
    intro comps par hplen hpUF hpeq hiL hpwL hfresh hre hnod hpw hne
    have hi : i < parent0.length := hiL i (List.mem_cons_self i rest)
    have hi' : i < par.length := by rw [hplen]; exact hi
    obtain ⟨k0, hk0, hr0⟩ := exists_root_within par hpUF i hi'
    obtain ⟨hfre, hflen, hfUF, hfeq⟩ :=
      ufFind_spec par.length par i hpUF hi' ⟨k0, by omega, hr0⟩
    have hpeq' : ∀ y r, reaches parent0 y r ↔ reaches (ufFind par i par.length).2 y r :=
      fun y r => (hpeq y r).trans (hfeq y r)
    have hre0 : reaches parent0 i (ufFind par i par.length).1 := (hpeq i _).mpr hfre
    have hirest : ∀ j ∈ rest, i < j := (List.pairwise_cons.mp hpwL).1
    have hpwrest : List.Pairwise (· < ·) rest := (List.pairwise_cons.mp hpwL).2
    have hstep : compStep (comps, par) i =
        (if comps.any (fun c => c.1 = (ufFind par i par.length).1) then
           comps.map (fun c => if c.1 = (ufFind par i par.length).1
             then (c.1, c.2 ++ [i]) else c)
         else comps ++ [((ufFind par i par.length).1, [i])],
         (ufFind par i par.length).2) := rfl
    rw [List.foldl_cons, hstep]
    by_cases hany : comps.any (fun c => c.1 = (ufFind par i par.length).1) = true
    · rw [if_pos hany]
      obtain ⟨hres1, hres2, hres3, hres4, hres5, hres6⟩ :=
        ih (comps.map (fun c => if c.1 = (ufFind par i par.length).1
              then (c.1, c.2 ++ [i]) else c))
          (ufFind par i par.length).2
          (by rw [hflen, hplen]) hfUF hpeq'
          (fun j hj => hiL j (List.mem_cons_of_mem i hj)) hpwrest
          (fun j hj c hc m hm => by
            rw [List.mem_map] at hc
            obtain ⟨c0, hc0, rfl⟩ := hc
            by_cases he : c0.1 = (ufFind par i par.length).1
            · rw [if_pos he] at hm
              rcases List.mem_append.mp hm with hmold | hmi
              · exact Nat.lt_trans (hfresh i (List.mem_cons_self i rest) c0 hc0 m hmold)
                  (hirest j hj)
              · rw [List.mem_singleton.mp hmi]
                exact hirest j hj
            · rw [if_neg he] at hm
              exact Nat.lt_trans (hfresh i (List.mem_cons_self i rest) c0 hc0 m hm)
                (hirest j hj))
          (fun c hc m hm => by
            rw [List.mem_map] at hc
            obtain ⟨c0, hc0, rfl⟩ := hc
            by_cases he : c0.1 = (ufFind par i par.length).1
            · rw [if_pos he] at hm ⊢
              rcases List.mem_append.mp hm with hmold | hmi
              · exact hre c0 hc0 m hmold
              · rw [List.mem_singleton.mp hmi]
                rw [he]
                exact ⟨hre0, hi⟩
            · rw [if_neg he] at hm ⊢
              exact hre c0 hc0 m hm)
          (by
            have hkeys : (comps.map (fun c => if c.1 = (ufFind par i par.length).1
                then (c.1, c.2 ++ [i]) else c)).map (fun c => c.1) =
                comps.map (fun c => c.1) := by
              rw [List.map_map]
              refine map_eq_of_mem_eq comps _ _ (fun c hc => ?_)
              by_cases he : c.1 = (ufFind par i par.length).1
              · simp [he]
              · simp [he]
            rw [hkeys]
            exact hnod)
          (fun c hc => by
            rw [List.mem_map] at hc
            obtain ⟨c0, hc0, rfl⟩ := hc
            by_cases he : c0.1 = (ufFind par i par.length).1
            · rw [if_pos he]
              show List.Pairwise (· < ·) (c0.2 ++ [i])
              rw [List.pairwise_append]
              refine ⟨hpw c0 hc0, List.pairwise_singleton _ i, fun a ha b hb => ?_⟩
              rw [List.mem_singleton.mp hb]
              exact hfresh i (List.mem_cons_self i rest) c0 hc0 a ha
            · rw [if_neg he]
              exact hpw c0 hc0)
          (fun c hc => by
            rw [List.mem_map] at hc
            obtain ⟨c0, hc0, rfl⟩ := hc
            by_cases he : c0.1 = (ufFind par i par.length).1
            · rw [if_pos he]
              simp
            · rw [if_neg he]
              exact hne c0 hc0)
      refine ⟨hres1, hres2, hres3, hres4, ?_, ?_⟩
      · intro c hc
        have hmem : (if c.1 = (ufFind par i par.length).1 then (c.1, c.2 ++ [i]) else c) ∈
            comps.map (fun c => if c.1 = (ufFind par i par.length).1
              then (c.1, c.2 ++ [i]) else c) :=
          List.mem_map.mpr ⟨c, hc, rfl⟩
        obtain ⟨c', hc', hkey, hsub⟩ := hres5 _ hmem
        refine ⟨c', hc', ?_, ?_⟩
        · rw [hkey]
          by_cases he : c.1 = (ufFind par i par.length).1
          · rw [if_pos he]
          · rw [if_neg he]
        · intro m hm
          refine hsub m ?_
          by_cases he : c.1 = (ufFind par i par.length).1
          · rw [if_pos he]
            exact List.mem_append.mpr (Or.inl hm)
          · rw [if_neg he]
            exact hm
      · intro j hj
        rcases List.mem_cons.mp hj with rfl | hjr
        · obtain ⟨c0, hc0, hc0key⟩ := List.any_eq_true.mp hany
          have hc0key' : c0.1 = (ufFind par j par.length).1 := by
            exact of_decide_eq_true hc0key
          have hmem : (c0.1, c0.2 ++ [j]) ∈
              comps.map (fun c => if c.1 = (ufFind par j par.length).1
                then (c.1, c.2 ++ [j]) else c) := by
            refine List.mem_map.mpr ⟨c0, hc0, ?_⟩
            rw [if_pos hc0key']
          obtain ⟨c', hc', -, hsub⟩ := hres5 _ hmem
          exact ⟨c', hc', hsub j (List.mem_append.mpr (Or.inr (List.mem_singleton.mpr rfl)))⟩
        · exact hres6 j hjr
    · rw [if_neg hany]
      have hnotkey : ∀ c ∈ comps, ¬ c.1 = (ufFind par i par.length).1 := by
        intro c hc hkey
        exact hany (List.any_eq_true.mpr ⟨c, hc, decide_eq_true hkey⟩)
      obtain ⟨hres1, hres2, hres3, hres4, hres5, hres6⟩ :=
        ih (comps ++ [((ufFind par i par.length).1, [i])])
          (ufFind par i par.length).2
          (by rw [hflen, hplen]) hfUF hpeq'
          (fun j hj => hiL j (List.mem_cons_of_mem i hj)) hpwrest
          (fun j hj c hc m hm => by
            rcases List.mem_append.mp hc with hcold | hcnew
            · exact Nat.lt_trans (hfresh i (List.mem_cons_self i rest) c hcold m hm)
                (hirest j hj)
            · rw [List.mem_singleton.mp hcnew] at hm
              rw [List.mem_singleton.mp hm]
              exact hirest j hj)
          (fun c hc m hm => by
            rcases List.mem_append.mp hc with hcold | hcnew
            · exact hre c hcold m hm
            · rw [List.mem_singleton.mp hcnew] at hm ⊢
              rw [List.mem_singleton.mp hm]
              exact ⟨hre0, hi⟩)
          (by
            rw [List.map_append]
            rw [List.nodup_append]
            refine ⟨hnod, List.nodup_singleton _, fun a ha hb => ?_⟩
            rw [List.mem_map] at ha
            obtain ⟨c0, hc0, rfl⟩ := ha
            have : (ufFind par i par.length).1 ∈
                [((ufFind par i par.length).1, [i])].map (fun c => c.1) := by
              simp
            rw [show ([((ufFind par i par.length).1, [i])].map (fun c => c.1)) =
              [(ufFind par i par.length).1] by rfl] at hb
            exact hnotkey c0 hc0 (List.mem_singleton.mp hb))
          (fun c hc => by
            rcases List.mem_append.mp hc with hcold | hcnew
            · exact hpw c hcold
            · rw [List.mem_singleton.mp hcnew]
              exact List.pairwise_singleton _ i)
          (fun c hc => by
            rcases List.mem_append.mp hc with hcold | hcnew
            · exact hne c hcold
            · rw [List.mem_singleton.mp hcnew]
              simp)
      refine ⟨hres1, hres2, hres3, hres4, ?_, ?_⟩
      · intro c hc
        exact hres5 c (List.mem_append.mpr (Or.inl hc))
      · intro j hj
        rcases List.mem_cons.mp hj with rfl | hjr
        · obtain ⟨c', hc', -, hsub⟩ :=
            hres5 ((ufFind par j par.length).1, [j])
              (List.mem_append.mpr (Or.inr (List.mem_singleton.mpr rfl)))
          exact ⟨c', hc', hsub j (List.mem_singleton.mpr rfl)⟩
        · exact hres6 j hjr

theorem componentsOf_spec (parent0 : List Nat) (n : Nat) (hlen : parent0.length = n)
    (hUF : UFinv parent0) :
    (∀ c ∈ componentsOf parent0 n, ∀ m ∈ c.2, reaches parent0 m c.1 ∧ m < n) ∧
    ((componentsOf parent0 n).map (fun c => c.1)).Nodup ∧
    (∀ c ∈ componentsOf parent0 n, List.Pairwise (· < ·) c.2) ∧
    (∀ c ∈ componentsOf parent0 n, c.2 ≠ []) ∧
    (∀ i, i < n → ∃ c ∈ componentsOf parent0 n, i ∈ c.2) := by
  obtain ⟨hres1, hres2, hres3, hres4, -, hres6⟩ :=
    componentsFold_spec parent0 (List.range n) [] parent0 rfl hUF
      (fun y r => Iff.rfl)
      (fun i hi => by rw [hlen]; exact List.mem_range.mp hi)
      (List.sorted_lt_range n)
      (fun i hi c hc => absurd hc (List.not_mem_nil c))
      (fun c hc => absurd hc (List.not_mem_nil c))
      (List.nodup_nil)
      (fun c hc => absurd hc (List.not_mem_nil c))
      (fun c hc => absurd hc (List.not_mem_nil c))
  have hcast : ∀ c ∈ componentsOf parent0 n,
      c ∈ ((List.range n).foldl compStep ([], parent0)).1 := fun c hc => hc
  refine ⟨?_, hres2, ?_, ?_, ?_⟩
  · intro c hc m hm
    obtain ⟨h1, h2⟩ := hres1 c (hcast c hc) m hm
    exact ⟨h1, by rw [← hlen]; exact h2⟩
  · exact fun c hc => hres3 c (hcast c hc)
  · exact fun c hc => hres4 c (hcast c hc)
  · intro i hi
    exact hres6 i (List.mem_range.mpr hi)

theorem inSameComponent_iff_sameRoot (parent0 : List Nat) (n : Nat)
    (hlen : parent0.length = n) (hUF : UFinv parent0) (x y : Nat)
    (hx : x < n) (hy : y < n) :
    inSameComponent (componentsOf parent0 n) x y ↔ sameRoot parent0 x y := by
  obtain ⟨hre, hnod, -, -, hcov⟩ := componentsOf_spec parent0 n hlen hUF
  constructor
  · rintro ⟨c, hc, hxc, hyc⟩
    exact ⟨c.1, (hre c hc x hxc).1, (hre c hc y hyc).1⟩
  · rintro ⟨r, hxr, hyr⟩
    obtain ⟨cx, hcx, hxcx⟩ := hcov x hx
    obtain ⟨cy, hcy, hycy⟩ := hcov y hy
    have hkx : cx.1 = r := reaches_unique parent0 x cx.1 r (hre cx hcx x hxcx).1 hxr
    have hky : cy.1 = r := reaches_unique parent0 y cy.1 r (hre cy hcy y hycy).1 hyr
    have hcxy : cx = cy :=
      List.inj_on_of_nodup_map hnod hcx hcy (by rw [hkx, hky])
    refine ⟨cx, hcx, hxcx, ?_⟩
    rw [hcxy]
    exact hycy

theorem headD_mem {α : Type} (l : List α) (d : α) (h : l ≠ []) : l.headD d ∈ l := by
  cases l with
  | nil => exact absurd rfl h
  | cons hd t => exact List.mem_cons_self hd t

theorem flatGet_set_ne (flat : List (String × Entry)) (j : Nat) (v : String × Entry)
    (i : Nat) (h : i ≠ j) : flatGet (flat.set j v) i = flatGet flat i := by
  unfold flatGet
  rw [List.getD_eq_getElem?_getD, List.getD_eq_getElem?_getD,
    List.getElem?_set_ne (fun hc => h hc.symm)]

theorem flatGet_set_eq (flat : List (String × Entry)) (j : Nat) (v : String × Entry)
    (h : j < flat.length) : flatGet (flat.set j v) j = v := by
  unfold flatGet
  rw [List.getD_eq_getElem?_getD, List.getElem?_set_self h]
  rfl

theorem mapM_counter_ok (flat : List (String × Entry)) (f : Entry → Option Int) :
    ∀ ms : List Nat, (∀ m ∈ ms, (f (flatGet flat m).2).isSome) →
    (ms.mapM (fun m =>
      match f (flatGet flat m).2 with
      | some v => Except.ok v
      | none => Except.error PyErr.keyError) : Except PyErr (List Int)) =
      .ok (ms.map (fun m => (f (flatGet flat m).2).getD 0)) := by
  intro ms
  induction ms with
  | nil =>
    intro h
    rfl
  | cons m t ih =>
    intro h
    obtain ⟨v, hv⟩ := Option.isSome_iff_exists.mp (h m (List.mem_cons_self m t))
    rw [List.mapM_cons, hv, except_ok_bind,
      ih (fun m' hm' => h m' (List.mem_cons_of_mem m hm')), except_ok_bind,
      except_pure_eq_ok]
    show Except.ok (v :: t.map _) = Except.ok ((f (flatGet flat m).2).getD 0 :: t.map _)
    rw [hv]
    rfl

theorem sumCounterE_ok (flat : List (String × Entry)) (ms : List Nat)
    (f : Entry → Option Int) (h : ∀ m ∈ ms, (f (flatGet flat m).2).isSome) :
    sumCounterE flat ms f =
      .ok ((ms.map (fun m => (f (flatGet flat m).2).getD 0)).sum) := by
  unfold sumCounterE
  rw [mapM_counter_ok flat f ms h]
  rfl

theorem mergeComponents_spec :
    ∀ (comps : List (Nat × List Nat)) (flat : List (String × Entry)) (acc : List Nat),
      (∀ c ∈ comps, c.2 ≠ []) →
      (∀ c ∈ comps, ∀ m ∈ c.2, m < flat.length) →
      List.Pairwise (fun c c' => ∀ m, m ∈ c.2 → ¬ m ∈ c'.2) comps →
      (∀ c ∈ comps, ∀ m ∈ c.2,
        (flatGet flat m).2.helpful.isSome ∧ (flatGet flat m).2.harmful.isSome) →
      ∃ flat2 rem,
        mergeComponents flat comps acc = .ok (flat2, rem) ∧
        rem = acc ++
          ((comps.filter (fun c => decide (1 < c.2.length))).map (fun c => c.2.tail)).flatten ∧
        flat2.length = flat.length ∧
        (∀ i, (∀ c ∈ comps, 1 < c.2.length → i ≠ c.2.headD 0) →
          flatGet flat2 i = flatGet flat i) ∧
        (∀ c ∈ comps, 1 < c.2.length →
          flatGet flat2 (c.2.headD 0) =
            ((flatGet flat (c.2.headD 0)).1,
             { (flatGet flat (c.2.headD 0)).2 with
               helpful :=
                 some ((c.2.map (fun m => ((flatGet flat m).2.helpful.getD 0))).sum),
               harmful :=
                 some ((c.2.map (fun m => ((flatGet flat m).2.harmful.getD 0))).sum) })) := by
  intro comps
  induction comps with
  | nil =>
    intro flat acc hne hbound hdisj hkeys
    refine ⟨flat, acc, rfl, by simp, rfl, fun i hi => rfl, fun c hc => absurd hc (List.not_mem_nil c)⟩
  | cons c rest ih =>
    intro flat acc hne hbound hdisj hkeys
    have hdef : mergeComponents flat (c :: rest) acc =
        (if c.2.length ≤ 1 then mergeComponents flat rest acc
         else
           match sumCounterE flat c.2 (fun e => e.helpful) with
           | .error _ => .error flat
           | .ok th =>
             match sumCounterE flat c.2 (fun e => e.harmful) with
             | .error _ => .error flat
             | .ok ta =>
               let si := c.2.headD 0
               let sp := flatGet flat si
               mergeComponents
                 (flat.set si (sp.1, { sp.2 with helpful := some th, harmful := some ta }))
                 rest (acc ++ c.2.tail)) := rfl
    by_cases hlen1 : c.2.length ≤ 1
    · rw [hdef, if_pos hlen1] at *
      obtain ⟨flat2, rem, hEq, hRem, hL, hFrame, hSurv⟩ :=
        ih flat acc (fun c' hc' => hne c' (List.mem_cons_of_mem c hc'))
          (fun c' hc' => hbound c' (List.mem_cons_of_mem c hc'))
          (List.pairwise_cons.mp hdisj).2
          (fun c' hc' => hkeys c' (List.mem_cons_of_mem c hc'))
      refine ⟨flat2, rem, hEq, ?_, hL, ?_, ?_⟩
      · rw [hRem, List.filter_cons_of_neg (by simpa using hlen1)]
      · intro i hi
        exact hFrame i (fun c' hc' => hi c' (List.mem_cons_of_mem c hc'))
      · intro c' hc' hm
        rcases List.mem_cons.mp hc' with rfl | hc''
        · omega
        · exact hSurv c' hc'' hm
    · have hcne : c.2 ≠ [] := hne c (List.mem_cons_self c rest)
      have hsimem : c.2.headD 0 ∈ c.2 := headD_mem c.2 0 hcne
      have hsilt : c.2.headD 0 < flat.length :=
        hbound c (List.mem_cons_self c rest) _ hsimem
      have hkc : ∀ m ∈ c.2,
          (flatGet flat m).2.helpful.isSome ∧ (flatGet flat m).2.harmful.isSome :=
        hkeys c (List.mem_cons_self c rest)
      have hsum1 : sumCounterE flat c.2 (fun e => e.helpful) =
          .ok ((c.2.map (fun m => ((flatGet flat m).2.helpful.getD 0))).sum) :=
        sumCounterE_ok flat c.2 (fun e => e.helpful) (fun m hm => (hkc m hm).1)
      have hsum2 : sumCounterE flat c.2 (fun e => e.harmful) =
          .ok ((c.2.map (fun m => ((flatGet flat m).2.harmful.getD 0))).sum) :=
        sumCounterE_ok flat c.2 (fun e => e.harmful) (fun m hm => (hkc m hm).2)
      have hdisj1 : ∀ c' ∈ rest, ∀ m, m ∈ c.2 → ¬ m ∈ c'.2 :=
        fun c' hc' => (List.pairwise_cons.mp hdisj).1 c' hc'
      obtain ⟨F, hF⟩ : ∃ F, F = flat.set (c.2.headD 0)
          ((flatGet flat (c.2.headD 0)).1,
           { (flatGet flat (c.2.headD 0)).2 with
             helpful :=
               some ((c.2.map (fun m => ((flatGet flat m).2.helpful.getD 0))).sum),
             harmful :=
               some ((c.2.map (fun m => ((flatGet flat m).2.harmful.getD 0))).sum) }) :=
        ⟨_, rfl⟩
      have hget_ne : ∀ m, m ≠ c.2.headD 0 → flatGet F m = flatGet flat m := by
        intro m hm
        rw [hF]
        exact flatGet_set_ne _ _ _ _ hm
      have hget_eq : flatGet F (c.2.headD 0) =
          ((flatGet flat (c.2.headD 0)).1,
           { (flatGet flat (c.2.headD 0)).2 with
             helpful :=
               some ((c.2.map (fun m => ((flatGet flat m).2.helpful.getD 0))).sum),
             harmful :=
               some ((c.2.map (fun m => ((flatGet flat m).2.harmful.getD 0))).sum) }) := by
        rw [hF]
        exact flatGet_set_eq flat _ _ hsilt
      have hFlen : F.length = flat.length := by
        rw [hF, List.length_set]
      have hstep : mergeComponents flat (c :: rest) acc =
          mergeComponents F rest (acc ++ c.2.tail) := by
        rw [hF, hdef, if_neg hlen1, hsum1, hsum2]
      obtain ⟨flat2, rem, hEq, hRem, hL, hFrame, hSurv⟩ :=
        ih F (acc ++ c.2.tail)
          (fun c' hc' => hne c' (List.mem_cons_of_mem c hc'))
          (fun c' hc' m hm => by
            rw [hFlen]
            exact hbound c' (List.mem_cons_of_mem c hc') m hm)
          (List.pairwise_cons.mp hdisj).2
          (fun c' hc' m hm => by
            have hmne : m ≠ c.2.headD 0 :=
              fun hc => hdisj1 c' hc' m (hc ▸ hsimem) hm
            rw [hget_ne m hmne]
            exact hkeys c' (List.mem_cons_of_mem c hc') m hm)
      refine ⟨flat2, rem, hstep.trans hEq, ?_, ?_, ?_, ?_⟩
      · rw [hRem, List.filter_cons_of_pos (by simpa using hlen1), List.map_cons,
          List.flatten_cons, List.append_assoc]
      · rw [hL, hFlen]
      · intro i hi
        have hine : i ≠ c.2.headD 0 :=
          hi c (List.mem_cons_self c rest) (by omega)
        rw [hFrame i (fun c' hc' => hi c' (List.mem_cons_of_mem c hc')), hget_ne i hine]
      · intro c' hc' hm
        rcases List.mem_cons.mp hc' with rfl | hc''
        · have hhead_ne : ∀ c'' ∈ rest, 1 < c''.2.length →
              c'.2.headD 0 ≠ c''.2.headD 0 := by
            intro c'' hc'' hm''
            have hmem'' : c''.2.headD 0 ∈ c''.2 :=
              headD_mem c''.2 0 (hne c'' (List.mem_cons_of_mem c' hc''))
            exact fun hc => hdisj1 c'' hc'' _ hsimem (hc ▸ hmem'')
          rw [hFrame _ hhead_ne, hget_eq]
        · have hmemne : ∀ m ∈ c'.2, m ≠ c.2.headD 0 :=
            fun m hm' hc => hdisj1 c' hc'' m (hc ▸ hsimem) hm'
          have hheadne : c'.2.headD 0 ≠ c.2.headD 0 :=
            hmemne _ (headD_mem c'.2 0 (hne c' (List.mem_cons_of_mem c hc'')))
          have hmap1 : c'.2.map (fun m => ((flatGet F m).2.helpful.getD 0)) =
              c'.2.map (fun m => ((flatGet flat m).2.helpful.getD 0)) :=
            map_eq_of_mem_eq _ _ _ (fun m hm' => by rw [hget_ne m (hmemne m hm')])
          have hmap2 : c'.2.map (fun m => ((flatGet F m).2.harmful.getD 0)) =
              c'.2.map (fun m => ((flatGet flat m).2.harmful.getD 0)) :=
            map_eq_of_mem_eq _ _ _ (fun m hm' => by rw [hget_ne m (hmemne m hm')])
          rw [hSurv c' hc'' hm, hget_ne _ hheadne, hmap1, hmap2]

theorem headD_le_of_pairwise (l : List Nat) (h : List.Pairwise (· < ·) l) (m : Nat)
    (hm : m ∈ l) : l.headD 0 ≤ m := by
  cases l with
  | nil => exact absurd hm (List.not_mem_nil m)
  | cons hd t =>
    rcases List.mem_cons.mp hm with rfl | hmt
    · exact Nat.le_refl _
    · exact Nat.le_of_lt ((List.pairwise_cons.mp h).1 m hmt)

/-- **C6**: deduplication groups entries into the connected components of the
similarity graph — membership in a common component is exactly the equivalence
closure of the pairs at or above the threshold, which makes the grouping
transitive; in every multi-member component of the grouping the survivor is
the head of the member list, which is its smallest flattened index, the
survivor's `helpful`/`harmful` become the sums over all members while its
section and its other fields are read from its old slot unchanged, the
removal list is exactly the concatenation of the non-survivor tails, and
every non-survivor slot of the flat list is left untouched by the merge loop;
and on the spec's transitivity example (similarities 0.90, 0.88, 0.80 at
threshold 0.85) the full pipeline collapses all three entries into the first
one with counters summed to 7 and 3. -/
theorem claim_C6 :
    (∀ (n : Nat) (sim : Nat → Nat → Rat) (θ : Rat) (x y : Nat), x < n → y < n →
      (inSameComponent (componentsOf (buildParent n sim θ) n) x y ↔
        Relation.EqvGen (pairAdj n sim θ) x y)) ∧
    (∀ (parent : List Nat) (n : Nat) (flat : List (String × Entry)),
      UFinv parent → parent.length = n → flat.length = n →
      (∀ m, m < n →
        (flatGet flat m).2.helpful.isSome ∧ (flatGet flat m).2.harmful.isSome) →
      ∃ flat2 rem,
        mergeComponents flat (componentsOf parent n) [] = .ok (flat2, rem) ∧
        rem = (((componentsOf parent n).filter (fun c => decide (1 < c.2.length))).map
          (fun c => c.2.tail)).flatten ∧
        flat2.length = flat.length ∧
        (∀ c ∈ componentsOf parent n, 1 < c.2.length →
          (∀ m ∈ c.2, c.2.headD 0 ≤ m) ∧
          flatGet flat2 (c.2.headD 0) =
            ((flatGet flat (c.2.headD 0)).1,
             { (flatGet flat (c.2.headD 0)).2 with
               helpful :=
                 some ((c.2.map (fun m => ((flatGet flat m).2.helpful.getD 0))).sum),
               harmful :=
                 some ((c.2.map (fun m => ((flatGet flat m).2.harmful.getD 0))).sum) })) ∧
        (∀ i, (∀ c ∈ componentsOf parent n, 1 < c.2.length → i ≠ c.2.headD 0) →
          flatGet flat2 i = flatGet flat i)) ∧
    run_deduplication c6Playbook none c6Env = c6Expected := by
  refine ⟨?_, ?_, ?_⟩
  · intro n sim θ x y hx hy
    obtain ⟨hlen, hUF, hchar⟩ := buildParent_spec n sim θ
    rw [inSameComponent_iff_sameRoot (buildParent n sim θ) n hlen hUF x y hx hy]
    exact hchar x y hx hy
  · intro parent n flat hUF hplen hflen hkeys
    obtain ⟨hre, hnod, hpwm, hnem, -⟩ := componentsOf_spec parent n hplen hUF
    have hdisj : List.Pairwise (fun c c' => ∀ m, m ∈ c.2 → ¬ m ∈ c'.2)
        (componentsOf parent n) := by
      have hk : (componentsOf parent n).Pairwise (fun c c' => c.1 ≠ c'.1) :=
        List.pairwise_map.mp hnod
      refine hk.imp_of_mem ?_
      intro c c' hc hc' hkne m hm hm'
      exact hkne (reaches_unique parent m c.1 c'.1 (hre c hc m hm).1 (hre c' hc' m hm').1)
    obtain ⟨flat2, rem, hEq, hRem, hL, hFrame, hSurv⟩ :=
      mergeComponents_spec (componentsOf parent n) flat []
        hnem
        (fun c hc m hm => by rw [hflen]; exact (hre c hc m hm).2)
        hdisj
        (fun c hc m hm => hkeys m (hre c hc m hm).2)
    refine ⟨flat2, rem, hEq, by rw [hRem, List.nil_append], hL, ?_, hFrame⟩
    intro c hc hm
    exact ⟨fun m hmm => headD_le_of_pairwise c.2 (hpwm c hc) m hmm, hSurv c hc hm⟩
  · with_unfolding_all decide

theorem claim_C6_witness :
    inSameComponent (componentsOf (buildParent 2 (simOf [[1], [1]]) (85/100)) 2) 0 1 ∧
    (∃ flat2 rem, mergeComponents c6WitnessFlat (componentsOf [0, 0] 2) [] =
      .ok (flat2, rem)) := by
  constructor
  · exact (claim_C6.1 2 (simOf [[1], [1]]) (85/100) 0 1 (by decide) (by decide)).mpr
      (Relation.EqvGen.rel 0 1 ⟨by decide, by decide, by with_unfolding_all decide⟩)
  · obtain ⟨flat2, rem, hEq, -⟩ := claim_C6.2.1 [0, 0] 2 c6WitnessFlat
      ⟨by decide, fun x => x, by decide⟩ rfl rfl (by decide)
    exact ⟨flat2, rem, hEq⟩

end ACE
